import Mathlib

/-!
# Verification of `ijson/common.py` (illphil/ijson)

Shallow embedding of the backend-independent layer of the `ijson` fork:

* `pstep` / `parseRun`  — the path annotator `parse` (an iterator keeping a
  path stack and yielding `(prefix, event, value)` triples);
* `Builder` / `Builder.event` — the incremental tree builder `ObjectBuilder`
  (a stack of assignment slots; in the source the slots are closures that
  eagerly link each freshly created container into its parent and mutate it
  in place; here each open container is a stack frame carrying its partial
  content together with the key snapshot under which it was linked, and the
  link is materialised when the frame is popped — observationally the same,
  because the parent is never written while a child container is open, and
  the mid-stream `value` attribute is recovered by `Builder.valueNow`);
* `itemsGo` / `captureGo` — the prefix item extractor `items`;
* `spStep` / `jgStep` ... — the hybrid lazy structure `ijsondict`
  (`_start_parse` and `_json_generator`).

Python `dict` assignment `d[k] = v` is modelled by `upsert` on association
lists (replace in place if the key exists, append otherwise), `list.append`
by `++ [v]`.  Python `IndexError` / `TypeError` / `AttributeError` raised by
the source on malformed streams are modelled with `Except`.
-/

set_option autoImplicit false

namespace IJson

/-- JSON values as reconstructed by the tree builder.  Numbers are modelled
by `Int` (the backends produce `int`/`Decimal`); objects are ordered
association lists (insertion order, unique keys maintained by `upsert`). -/
inductive JValue where
  | null
  | bool (b : Bool)
  | num (n : Int)
  | str (s : String)
  | arr (xs : List JValue)
  | obj (es : List (String × JValue))

/-- The flat events produced by a tokenizer backend, as `(event, value)`
pairs: the kind and the attached value are fused into one constructor. -/
inductive Event where
  | null
  | boolean (b : Bool)
  | number (n : Int)
  | string (s : String)
  | map_key (k : String)
  | start_map
  | end_map
  | start_array
  | end_array
  deriving DecidableEq, Repr

/-- Is the event one of the four structural `start_`/`end_` kinds? -/
def Event.isScalar : Event → Bool
  | .null | .boolean _ | .number _ | .string _ => true
  | _ => false

/-- Is the event `end_map` or `end_array`? -/
def Event.isEnd : Event → Bool
  | .end_map | .end_array => true
  | _ => false

/-- The Python value carried by an event (the third component the code
yields): `None` for structural events, the key string for `map_key`. -/
def Event.value : Event → JValue
  | .null => .null
  | .boolean b => .bool b
  | .number n => .num n
  | .string s => .str s
  | .map_key k => .str k
  | .start_map | .end_map | .start_array | .end_array => .null

/-- `d[k] = v` on an insertion-ordered association list: replace the value
in place when the key is present, append a fresh entry otherwise. -/
def upsert : List (String × JValue) → String → JValue → List (String × JValue)
  | [], k, v => [(k, v)]
  | (k', v') :: rest, k, v =>
      if k' = k then (k, v) :: rest else (k', v') :: upsert rest k v

/-- Association-list lookup (first entry wins; keys are unique after
`upsert`). -/
def lookup : List (String × JValue) → String → Option JValue
  | [], _ => none
  | (k', v') :: rest, k => if k' = k then some v' else lookup rest k

mutual
/-- The well-formed flat event sequence encoding a value: the exact token
stream a backend produces for it. -/
def toEvents : JValue → List Event
  | .null => [.null]
  | .bool b => [.boolean b]
  | .num n => [.number n]
  | .str s => [.string s]
  | .arr xs => .start_array :: (toEventsL xs ++ [.end_array])
  | .obj es => .start_map :: (toEventsE es ++ [.end_map])

/-- Events of the members of an array, in order. -/
def toEventsL : List JValue → List Event
  | [] => []
  | x :: xs => toEvents x ++ toEventsL xs

/-- Events of the entries of an object: each key announced by `map_key`
followed by its value's events. -/
def toEventsE : List (String × JValue) → List Event
  | [] => []
  | (k, v) :: es => .map_key k :: (toEvents v ++ toEventsE es)
end

/-- `true` iff the list of strings has no duplicates. -/
def nodupKeys : List String → Bool
  | [] => true
  | k :: ks => !(decide (k ∈ ks)) && nodupKeys ks

mutual
/-- No object anywhere inside the value repeats a key. -/
def noDupKeys : JValue → Bool
  | .null | .bool _ | .num _ | .str _ => true
  | .arr xs => noDupKeysL xs
  | .obj es => nodupKeys (es.map Prod.fst) && noDupKeysE es

def noDupKeysL : List JValue → Bool
  | [] => true
  | x :: xs => noDupKeys x && noDupKeysL xs

def noDupKeysE : List (String × JValue) → Bool
  | [] => true
  | (_, v) :: es => noDupKeys v && noDupKeysE es
end

/-! ## The tree builder (`ObjectBuilder`) -/

/-- One open container on the builder stack.  `savedKey` is the value of
`self.key` at the moment the container was created — the key under which the
source linked it into a surrounding map (ignored when the parent is an array
or the root slot). -/
inductive CSlot where
  | mapS (entries : List (String × JValue)) (savedKey : String)
  | arrS (items : List JValue) (savedKey : String)

/-- State of an `ObjectBuilder`: `key` is `self.key` (the last `map_key`
seen, `""` standing for the initially unset attribute), `value` is
`self.value` once the root slot received a completed value, and `stack` the
open containers, innermost first. -/
structure Builder where
  key : String
  value : Option JValue
  stack : List CSlot

/-- A fresh `ObjectBuilder()`. -/
def Builder.init : Builder := ⟨"", none, []⟩

/-- The value a closed container contributes. -/
def CSlot.close : CSlot → JValue
  | .mapS es _ => .obj es
  | .arrS xs _ => .arr xs

/-- The key snapshot stored in a slot. -/
def CSlot.savedKey : CSlot → String
  | .mapS _ k => k
  | .arrS _ k => k

/-- Insert a completed child (linked under key snapshot `sk`) into its
parent slot. -/
def CSlot.put : CSlot → String → JValue → CSlot
  | .mapS es pk, sk, v => .mapS (upsert es sk v) pk
  | .arrS xs pk, _, v => .arrS (xs ++ [v]) pk

/-- `self.containers[-1](v)`: assign a value through the innermost slot
(into the root result when no container is open). -/
def Builder.assignTop (b : Builder) (v : JValue) : Builder :=
  match b.stack with
  | [] => { b with value := some v }
  | .mapS es pk :: rest => { b with stack := .mapS (upsert es b.key v) pk :: rest }
  | .arrS xs pk :: rest => { b with stack := .arrS (xs ++ [v]) pk :: rest }

/-- `ObjectBuilder.event`.  `map_key` remembers the key; `start_map` /
`start_array` push a fresh container recording the current key snapshot
(the source also links the new container into its parent here — that link
is materialised when the frame is popped, see the module comment);
`end_map` / `end_array` pop, completing the deferred link; scalars assign
through the top slot.  Popping with an empty stack would pop the source's
root setter and only fault later; it is unreachable for the streams
considered here and modelled as a no-op. -/
def Builder.event (b : Builder) (e : Event) : Builder :=
  match e with
  | .map_key k => { b with key := k }
  | .start_map => { b with stack := .mapS [] b.key :: b.stack }
  | .start_array => { b with stack := .arrS [] b.key :: b.stack }
  | .end_map | .end_array =>
      match b.stack with
      | [] => b
      | [s] => { b with stack := [], value := some s.close }
      | s :: t :: rest => { b with stack := t.put s.savedKey s.close :: rest }
  | e => b.assignTop e.value

/-- Feed a list of events into the builder in order. -/
def runB (b : Builder) (es : List Event) : Builder :=
  es.foldl Builder.event b

/-- Processing a sequence of map entries folds `upsert` over them. -/
def foldUpsert (acc : List (String × JValue)) :
    List (String × JValue) → List (String × JValue)
  | [] => acc
  | (k, v) :: es => foldUpsert (upsert acc k v) es

/-! ## The path annotator (`parse`) -/

/-- `'.'.join` on a list of segment strings. -/
def joinDot : List String → String
  | [] => ""
  | [s] => s
  | s :: t :: rest => s ++ "." ++ joinDot (t :: rest)

/-- All segments present (no pending `None` placeholder)? -/
def allSome : List (Option String) → Option (List String)
  | [] => some []
  | some s :: rest => (allSome rest).map (s :: ·)
  | none :: _ => none

/-- `'.'.join(path)` on the annotator's path stack: fails (Python
`TypeError`) when a pending `None` placeholder is among the joined
segments. -/
def joinP (path : List (Option String)) : Option String :=
  (allSome path).map joinDot

/-- The exceptions the annotator's loop body can raise. -/
inductive PErr where
  /-- `path.pop()` or `path[-1] = ...` on an empty list. -/
  | indexError
  /-- `'.'.join` over a path still containing `None`. -/
  | typeError
  deriving DecidableEq, Repr

/-- One iteration of the loop body of `parse`: given the path stack and the
incoming `(event, value)`, produce the emitted prefix and the new path, or
the exception the source raises (in source order: `map_key` joins before it
writes `path[-1]`; `end_map`/`end_array` pop before they join). -/
def pstep (path : List (Option String)) : Event → Except PErr (String × List (Option String))
  | .map_key k =>
      match joinP path.dropLast with
      | none => .error .typeError
      | some pfx =>
          if path.isEmpty then .error .indexError
          else .ok (pfx, path.dropLast ++ [some k])
  | .start_map =>
      match joinP path with
      | none => .error .typeError
      | some pfx => .ok (pfx, path ++ [none])
  | .end_map =>
      match path with
      | [] => .error .indexError
      | _ =>
          match joinP path.dropLast with
          | none => .error .typeError
          | some pfx => .ok (pfx, path.dropLast)
  | .start_array =>
      match joinP path with
      | none => .error .typeError
      | some pfx => .ok (pfx, path ++ [some "item"])
  | .end_array =>
      match path with
      | [] => .error .indexError
      | _ =>
          match joinP path.dropLast with
          | none => .error .typeError
          | some pfx => .ok (pfx, path.dropLast)
  | _ =>
      match joinP path with
      | none => .error .typeError
      | some pfx => .ok (pfx, path)

/-- Consume basic events through `parse` from a given path state: the
prefixed events yielded before any fault, the path when the run stopped,
and the fault if one occurred (the generator raises it at that pull, after
having already delivered the earlier triples). -/
def parseRun (path : List (Option String)) :
    List Event → List (String × Event) × List (Option String) × Option PErr
  | [] => ([], path, none)
  | e :: rest =>
      match pstep path e with
      | .error err => ([], path, some err)
      | .ok (pfx, path') =>
          let r := parseRun path' rest
          ((pfx, e) :: r.1, r.2)

/-- The prefixed events `parse` yields on a stream, starting from the empty
path. -/
def parseOuts (es : List Event) : List (String × Event) :=
  (parseRun [] es).1

/-- Collapse the open frames above `s` into it, innermost first. -/
def collapseS : CSlot → List CSlot → JValue
  | s, [] => s.close
  | s, t :: rest => collapseS (t.put s.savedKey s.close) rest

/-- The `value` attribute as observable mid-stream: in the source every open
container is already linked into its parent (and transitively into
`self.value`), so the current value is the whole stack collapsed. -/
def Builder.valueNow (b : Builder) : Option JValue :=
  match b.stack with
  | [] => b.value
  | s :: rest => some (collapseS s rest)

/-! ## The prefix item extractor (`items`) -/

/-- The control state of the `items` iterator: either scanning for the
target prefix, or inside a capture region feeding a builder until the
matching end event. -/
inductive IMode where
  | scan
  | capture (endE : Event) (b : Builder)

/-- The loop of `items`.  Scanning: at the target prefix a scalar's value
is yielded directly and a `start_map`/`start_array` opens a capture region
with a fresh builder which is immediately fed the start event.  Capturing:
events are fed to the builder until the `(prefix, end_event)` pair is
reached — that closing event is not fed — then `builder.value` is yielded
and scanning resumes after it.  Stream exhaustion ends the iterator without
yielding (the source swallows the `StopIteration`). -/
def itemsLoop (pfx : String) : IMode → List (String × Event) → List JValue
  | _, [] => []
  | .scan, (cur, e) :: rest =>
      if cur = pfx then
        match e with
        | .start_map =>
            itemsLoop pfx (.capture .end_map (Builder.init.event .start_map)) rest
        | .start_array =>
            itemsLoop pfx (.capture .end_array (Builder.init.event .start_array)) rest
        | _ => e.value :: itemsLoop pfx .scan rest
      else itemsLoop pfx .scan rest
  | .capture endE b, (cur, e) :: rest =>
      if cur = pfx ∧ e = endE then
        (match b.valueNow with | some v => v | none => .null) ::
          itemsLoop pfx .scan rest
      else itemsLoop pfx (.capture endE (b.event e)) rest

/-- `items(prefixed_events, prefix)` as a function on finite streams. -/
def itemsGo (pfx : String) (l : List (String × Event)) : List JValue :=
  itemsLoop pfx .scan l

/-! ## Specification-side definitions for prefix filtering -/

mutual
/-- Following the spec's words: the values "that would appear by manually
walking the document structure to that path", one per occurrence, in
document order; an `item` segment descends into every member of an array,
a key segment into the entries carrying that key. -/
def occurs : List String → JValue → List JValue
  | [], v => [v]
  | s :: t, .arr xs => if s = "item" then occursL t xs else []
  | s :: t, .obj es => occursE s t es
  | _ :: _, _ => []

/-- Walk continuation over array members. -/
def occursL (t : List String) : List JValue → List JValue
  | [] => []
  | x :: xs => occurs t x ++ occursL t xs

/-- Walk continuation over object entries. -/
def occursE (s : String) (t : List String) : List (String × JValue) → List JValue
  | [] => []
  | (k, v) :: es => (if k = s then occurs t v else []) ++ occursE s t es
end

/-- `rem? p T = some t` iff `T = p ++ t`: the target segments still to be
descended below the current path. -/
def rem? : List String → List String → Option (List String)
  | [], t => some t
  | _ :: _, [] => none
  | a :: p, b :: t => if a = b then rem? p t else none

/-- Walk from an intermediate path: only meaningful when the target extends
the current path. -/
def occursRem : Option (List String) → JValue → List JValue
  | none, _ => []
  | some t, v => occurs t v

/-- A segment that joins unambiguously: nonempty and dot-free. -/
def goodSeg (s : String) : Bool :=
  !(decide (s.data = [])) && !(decide ('.' ∈ s.data))

/-- All segments of a target path join unambiguously. -/
def goodSegs (l : List String) : Bool := l.all goodSeg

mutual
/-- Every map key anywhere in the document is nonempty and dot-free. -/
def goodKeys : JValue → Bool
  | .null | .bool _ | .num _ | .str _ => true
  | .arr xs => goodKeysL xs
  | .obj es => goodKeysE es

def goodKeysL : List JValue → Bool
  | [] => true
  | x :: xs => goodKeys x && goodKeysL xs

def goodKeysE : List (String × JValue) → Bool
  | [] => true
  | (k, v) :: es => goodSeg k && goodKeys v && goodKeysE es
end

mutual
/-- The prefixed events `parse` emits while consuming `toEvents V` from an
all-set path `p` (proved below as `parseRun_toEvents`). -/
def annotV (p : List String) : JValue → List (String × Event)
  | .null => [(joinDot p, .null)]
  | .bool b => [(joinDot p, .boolean b)]
  | .num n => [(joinDot p, .number n)]
  | .str s => [(joinDot p, .string s)]
  | .arr xs => (joinDot p, .start_array) ::
      (annotL (p ++ ["item"]) xs ++ [(joinDot p, .end_array)])
  | .obj es => (joinDot p, .start_map) ::
      (annotE p es ++ [(joinDot p, .end_map)])

/-- Prefixed events of array members at path `q`. -/
def annotL (q : List String) : List JValue → List (String × Event)
  | [] => []
  | x :: xs => annotV q x ++ annotL q xs

/-- Prefixed events of object entries whose container sits at path `p`:
each `map_key` is emitted at the container's own prefix. -/
def annotE (p : List String) : List (String × JValue) → List (String × Event)
  | [] => []
  | (k, v) :: es => (joinDot p, .map_key k) :: (annotV (p ++ [k]) v ++ annotE p es)
end

/-! ## The hybrid lazy structure (`ijsondict`) -/

/-- Values as built by `ijsondict`: ordinary JSON values plus the
`_json_generator` generator object, which the source stores into the
skeleton in place of the streamed collection. -/
inductive HValue where
  | null
  | bool (b : Bool)
  | num (n : Int)
  | str (s : String)
  | arr (xs : List HValue)
  | obj (es : List (String × HValue))
  | gen

/-- Content of one entry of the data stack. -/
inductive HCont where
  | hmap (es : List (String × HValue))
  | harr (xs : List HValue)
  /-- the generator object itself, between the Phase-1 break and the
  Phase-2 rebinding `data_stack[-1] = []` -/
  | hgen

/-- `d[k] = v` for the hybrid value type. -/
def upsertH : List (String × HValue) → String → HValue → List (String × HValue)
  | [], k, v => [(k, v)]
  | (k', v') :: rest, k, v =>
      if k' = k then (k, v) :: rest else (k', v') :: upsertH rest k v

/-- Association lookup for the hybrid value type. -/
def lookupH : List (String × HValue) → String → Option HValue
  | [], _ => none
  | (k', v') :: rest, k => if k' = k then some v' else lookupH rest k

/-- A sequence of keyed assignments into a hybrid map. -/
def foldUpsertH (acc : List (String × HValue)) :
    List (String × HValue) → List (String × HValue)
  | [] => acc
  | (k, v) :: es => foldUpsertH (upsertH acc k v) es

/-- The value a stack entry stands for once popped. -/
def HCont.close : HCont → HValue
  | .hmap es => .obj es
  | .harr xs => .arr xs
  | .hgen => .gen

/-- The value carried by an event, in hybrid form (Python's `value` loop
variable: `None` for structural events, the key for `map_key`). -/
def Event.hValue : Event → HValue
  | .null => .null
  | .boolean b => .bool b
  | .number n => .num n
  | .string s => .str s
  | .map_key k => .str k
  | _ => .null

mutual
/-- Plain JSON values embedded into the hybrid value type. -/
def JValue.toH : JValue → HValue
  | .null => .null
  | .bool b => .bool b
  | .num n => .num n
  | .str s => .str s
  | .arr xs => .arr (toHL xs)
  | .obj es => .obj (toHE es)

def toHL : List JValue → List HValue
  | [] => []
  | x :: xs => x.toH :: toHL xs

def toHE : List (String × JValue) → List (String × HValue)
  | [] => []
  | (k, v) :: es => (k, v.toH) :: toHE es
end

/-- One frame of the data stack.  In the source every freshly created
container is immediately linked into its parent (`thisdata[thiskey] = this`
or `thisdata.append(this)`) and then mutated in place through the stack;
here the frame records the link target (`savedKey` — the key snapshot
taken from `keys_stack[-1]` at creation — and whether a link was made at
all) and the link is materialised when the frame is popped.  The parent is
never written while a child is open, so the resulting structure is the
same.  The one exception is the generator frame: its parent entry must
stay the generator object even though the frame content is rebound to the
placeholder list, so the generator is linked eagerly at the break and its
frame carries `linked := false`. -/
structure HFrame where
  cont : HCont
  savedKey : String
  linked : Bool
  isSelf : Bool

/-- Shared mutable state of `_start_parse` and `_json_generator`:
`keys`/`data` are `keys_stack`/`data_stack` (bottom first, as in the
source's lists), `selfDone` records the dict's own content once its frame
has been popped, and `flag` is Phase 2's `yield_flag`. -/
structure HState where
  keys : List String
  data : List HFrame
  selfDone : Option HCont
  flag : Bool

/-- The exceptions the hybrid loop bodies can raise. -/
inductive HErr where
  /-- `[-1]` access or `pop()` on an empty stack -/
  | indexError
  /-- `.append` on the generator object -/
  | attrError
  deriving DecidableEq, Repr

/-- The state of a fresh `ijsondict` before any event. -/
def hInit : HState := ⟨[], [], none, false⟩

/-- Replace the last frame of the data stack. -/
def putLast (data : List HFrame) (f : HFrame) : List HFrame :=
  data.dropLast ++ [f]

/-- Scalar assignment through the current key and top-of-stack container:
`data[key] = value` for a dict and `data.append(value)` for a list (the
generator object supports neither). -/
def assignScalar (st : HState) (v : HValue) : Except HErr HState :=
  match st.keys.getLast? with
  | none => .error .indexError
  | some key =>
      match st.data.getLast? with
      | none => .error .indexError
      | some f =>
          match f.cont with
          | .hmap es =>
              .ok { st with data := putLast st.data { f with cont := .hmap (upsertH es key v) } }
          | .harr xs =>
              .ok { st with data := putLast st.data { f with cont := .harr (xs ++ [v]) } }
          | .hgen => .error .attrError

/-- `keys_stack.pop(); value = data_stack.pop()`: pop both stacks,
materialise the popped frame's deferred parent link, record the dict's
content when its own frame pops, and return the popped value (Phase 2
yields it when the keys stack matches). -/
def popStep (st : HState) : Except HErr (HState × HValue) :=
  match st.keys.getLast? with
  | none => .error .indexError
  | some _ =>
      match st.data.getLast? with
      | none => .error .indexError
      | some f =>
          let keys' := st.keys.dropLast
          let data' := st.data.dropLast
          let v := f.cont.close
          let done' := if f.isSelf then some f.cont else st.selfDone
          let st1 : HState := { keys := keys', data := data', selfDone := done', flag := st.flag }
          if f.linked then
            match data'.getLast? with
            | some g =>
                match g.cont with
                | .hmap es =>
                    .ok ({ st1 with data := putLast data' { g with cont := .hmap (upsertH es f.savedKey v) } }, v)
                | .harr xs =>
                    .ok ({ st1 with data := putLast data' { g with cont := .harr (xs ++ [v]) } }, v)
                | .hgen => .error .attrError
            | none =>
                -- unreachable: a linked frame was created with a parent below it
                .ok (st1, v)
          else
            .ok (st1, v)

/-- The container class chosen by `classmap` for a start token. -/
def classmapF : Event → HCont
  | .start_map => .hmap []
  | _ => .harr []

/-- Result of one `_start_parse` loop iteration: continue (with the
updated `first` flag), or break into Phase 2. -/
inductive SPRes where
  | cont (first : Bool) (st : HState)
  | broke (st : HState)

/-- The state carried by a Phase-1 step result. -/
def SPRes.state : SPRes → HState
  | .cont _ s => s
  | .broke s => s

/-- Push a fresh frame together with the `"item"` keys entry. -/
def pushFrame (st : HState) (fr : HFrame) : HState :=
  { st with data := st.data ++ [fr], keys := st.keys ++ ["item"] }

/-- One iteration of the `_start_parse` loop. On a start token: if the
keys stack equals the target prefix minus its last segment, the generator
is created, linked into the parent (eagerly, as in the source), pushed
together with an `"item"` keys entry, and the loop breaks; otherwise the
new container is the dict itself on the first start token and a fresh
`classmap` container afterwards, linked into the parent when the stack is
nonempty.  End tokens pop both stacks, `map_key` rewrites the top of the
keys stack in place, scalars assign through the current key. -/
def spStep (pfx : List String) (first : Bool) (st : HState) (e : Event) :
    Except HErr SPRes :=
  match e with
  | .start_map | .start_array =>
      if st.keys = pfx.dropLast then
        if st.keys.isEmpty then
          .ok (.broke (pushFrame st ⟨.hgen, "", false, false⟩))
        else
          (assignScalar st .gen).map (fun st' =>
            SPRes.broke (pushFrame st' ⟨.hgen, "", false, false⟩))
      else
        let fr : HFrame :=
          ⟨if first then .hmap [] else classmapF e,
           st.keys.getLast?.getD "", !st.keys.isEmpty, first⟩
        if st.keys.isEmpty then
          .ok (.cont false (pushFrame st fr))
        else
          match st.data.getLast? with
          | none => .error .indexError
          | some _ => .ok (.cont false (pushFrame st fr))
  | .end_map | .end_array =>
      (popStep st).map (fun r => SPRes.cont first r.1)
  | .map_key k =>
      match st.keys with
      | [] => .error .indexError
      | _ => .ok (.cont first { st with keys := st.keys.dropLast ++ [k] })
  | e => (assignScalar st e.hValue).map (fun st' => SPRes.cont first st')

/-- `_start_parse`: run Phase 1 until the stream ends or the break into
Phase 2 happens; returns the state, the unconsumed events and whether the
break happened. -/
def spRun (pfx : List String) (first : Bool) (st : HState) :
    List Event → Except HErr (HState × List Event × Bool)
  | [] => .ok (st, [], false)
  | e :: rest =>
      match spStep pfx first st e with
      | .error err => .error err
      | .ok (.cont f' st') => spRun pfx f' st' rest
      | .ok (.broke st') => .ok (st', rest, true)

/-- The Phase-1 states visited while consuming a stream (after each
successfully processed event; stops at a fault or at the break). -/
def spTrace (pfx : List String) (first : Bool) (st : HState) :
    List Event → List HState
  | [] => []
  | e :: rest =>
      match spStep pfx first st e with
      | .error _ => []
      | .ok (.cont f' st') => st' :: spTrace pfx f' st' rest
      | .ok (.broke st') => [st']

/-- The generator's first action: `data_stack[-1] = []` rebinds the top of
the data stack to the empty placeholder list (the parent keeps its eager
link to the generator object), and `yield_flag = False`. -/
def genInit (st : HState) : HState :=
  match st.data.getLast? with
  | none => st
  | some f => { st with data := putLast st.data { f with cont := .harr [] }, flag := false }

/-- The event-processing part of one `_json_generator` loop iteration:
start push, end pop, `map_key` rewrite in place, scalar assign — exactly
as in Phase 1 minus the break test — returning the new state, the loop's
`value` variable, and the updated `yield_flag` (set to true by end and
scalar events, untouched otherwise). -/
def jgStepCore (st : HState) (e : Event) :
    Except HErr (HState × HValue × Bool) :=
  match e with
  | .start_map | .start_array =>
      let fr : HFrame :=
        ⟨classmapF e, st.keys.getLast?.getD "", !st.keys.isEmpty, false⟩
      if st.keys.isEmpty then
        .ok (pushFrame st fr, .null, st.flag)
      else
        (match st.data.getLast? with
         | none => .error .indexError
         | some _ => .ok (pushFrame st fr, .null, st.flag))
  | .end_map | .end_array => (popStep st).map (fun r => (r.1, r.2, true))
  | .map_key k =>
      (match st.keys with
       | [] => .error .indexError
       | _ => .ok ({ st with keys := st.keys.dropLast ++ [k] }, .str k, st.flag))
  | e => (assignScalar st e.hValue).map (fun st' => (st', e.hValue, true))

/-- One full iteration of the `_json_generator` loop: process the event,
then — after every event — yield the current `value` if `yield_flag` is
set and the keys stack equals the full target prefix, clearing the flag. -/
def jgStep (pfx : List String) (st : HState) (e : Event) :
    Except HErr (HState × Option HValue) :=
  (jgStepCore st e).map (fun r =>
    match r with
    | (st', v, fl) =>
        if fl ∧ st'.keys = pfx then ({ st' with flag := false }, some v)
        else ({ st' with flag := fl }, none))

/-- One record of a Phase-2 run: state before, event, state after, and the
value yielded at this event, if any. -/
structure JGEntry where
  pre : HState
  ev : Event
  post : HState
  emitted : Option HValue

/-- The full log of a Phase-2 run (stops at a fault, which the source
raises out of the generator at that pull). -/
def jgRunLog (pfx : List String) (st : HState) : List Event → List JGEntry
  | [] => []
  | e :: rest =>
      match jgStep pfx st e with
      | .error _ => []
      | .ok (st', em) => ⟨st, e, st', em⟩ :: jgRunLog pfx st' rest

/-- The values a Phase-2 run yields, in order. -/
def jgYields (pfx : List String) (st : HState) (es : List Event) : List HValue :=
  (jgRunLog pfx st es).filterMap (·.emitted)

/-- The state after a Phase-2 run. -/
def jgExec (pfx : List String) (st : HState) : List Event → HState
  | [] => st
  | e :: rest =>
      match jgStep pfx st e with
      | .error _ => st
      | .ok (st', _) => jgExec pfx st' rest

example :
    (runB Builder.init
      [.start_map, .map_key "a", .start_array, .number 1, .number 2,
       .end_array, .end_map]).value =
      some (.obj [("a", .arr [.num 1, .num 2])]) := rfl

example :
    (runB Builder.init [.start_map]).valueNow = some (.obj []) := rfl

/-! ## Builder correctness -/

theorem runB_nil (b : Builder) : runB b [] = b := rfl

theorem runB_cons (b : Builder) (e : Event) (es : List Event) :
    runB b (e :: es) = runB (b.event e) es := rfl

theorem runB_append (b : Builder) (es fs : List Event) :
    runB b (es ++ fs) = runB (runB b es) fs :=
  List.foldl_append ..

theorem nodup_of_nodupKeys (l : List String) (h : nodupKeys l = true) : l.Nodup := by
  induction l with
  | nil => exact List.nodup_nil
  | cons k ks ih =>
      rw [show nodupKeys (k :: ks) = (!(decide (k ∈ ks)) && nodupKeys ks) from rfl,
        Bool.and_eq_true] at h
      refine List.nodup_cons.mpr ⟨?_, ih h.2⟩
      simpa using h.1

theorem upsert_of_not_mem (acc : List (String × JValue)) (k : String) (v : JValue)
    (h : k ∉ acc.map Prod.fst) : upsert acc k v = acc ++ [(k, v)] := by
  induction acc with
  | nil => rfl
  | cons p rest ih =>
      obtain ⟨k', v'⟩ := p
      have hne : ¬(k' = k) := by
        intro hcon; exact h (by simp [hcon])
      rw [show upsert ((k', v') :: rest) k v =
        (if k' = k then (k, v) :: rest else (k', v') :: upsert rest k v) from rfl,
        if_neg hne, ih (by intro hm; exact h (by simp [hm]))]
      rfl

theorem foldUpsert_of_nodup (acc es : List (String × JValue))
    (h : (acc.map Prod.fst ++ es.map Prod.fst).Nodup) :
    foldUpsert acc es = acc ++ es := by
  induction es generalizing acc with
  | nil => simp [foldUpsert]
  | cons p rest ih =>
      obtain ⟨k, v⟩ := p
      have hnotmem : k ∉ acc.map Prod.fst := by
        rw [List.nodup_append] at h
        intro hm
        exact h.2.2 hm (by simp)
      have hup := upsert_of_not_mem acc k v hnotmem
      rw [show foldUpsert acc ((k, v) :: rest) = foldUpsert (upsert acc k v) rest from rfl,
        hup, ih (acc ++ [(k, v)]) (by simpa using h)]
      simp

theorem assignTop_key (b : Builder) (v : JValue) : (b.assignTop v).key = b.key := by
  cases b with
  | mk k w st =>
    cases st with
    | nil => rfl
    | cons s rest => cases s <;> rfl

theorem assignTop_eta (b : Builder) (v : JValue) :
    { b.assignTop v with key := b.key } = b.assignTop v := by
  cases b with
  | mk k w st =>
    cases st with
    | nil => rfl
    | cons s rest => cases s <;> rfl

mutual
/-- Feeding the event encoding of a value into the builder acts like a
single assignment of that value through the current top slot (only the
remembered `key` attribute may additionally change). -/
theorem runB_toEvents (V : JValue) (h : noDupKeys V = true) (b : Builder) :
    ∃ k, runB b (toEvents V) = { b.assignTop V with key := k } := by
  match V with
  | .null => exact ⟨b.key, by rw [show toEvents .null = [.null] from rfl,
      runB_cons, runB_nil, show b.event .null = b.assignTop .null from rfl,
      assignTop_eta]⟩
  | .bool c => exact ⟨b.key, by rw [show toEvents (.bool c) = [.boolean c] from rfl,
      runB_cons, runB_nil, show b.event (.boolean c) = b.assignTop (.bool c) from rfl,
      assignTop_eta]⟩
  | .num n => exact ⟨b.key, by rw [show toEvents (.num n) = [.number n] from rfl,
      runB_cons, runB_nil, show b.event (.number n) = b.assignTop (.num n) from rfl,
      assignTop_eta]⟩
  | .str s => exact ⟨b.key, by rw [show toEvents (.str s) = [.string s] from rfl,
      runB_cons, runB_nil, show b.event (.string s) = b.assignTop (.str s) from rfl,
      assignTop_eta]⟩
  | .arr xs =>
      have hx : noDupKeysL xs = true := by
        have := h; rwa [show noDupKeys (.arr xs) = noDupKeysL xs from rfl] at this
      have h1 : b.event .start_array = ⟨b.key, b.value, .arrS [] b.key :: b.stack⟩ := by
        cases b; rfl
      obtain ⟨k, hk⟩ := runB_toEventsL xs hx b.key b.value [] b.key b.stack
      refine ⟨k, ?_⟩
      rw [show toEvents (.arr xs) = .start_array :: (toEventsL xs ++ [.end_array]) from rfl,
        runB_cons, h1, runB_append, hk]
      show Builder.event _ .end_array = _
      cases hst : b.stack with
      | nil => simp [Builder.event, Builder.assignTop, hst, CSlot.close]
      | cons s rest =>
          cases s <;>
            simp [Builder.event, Builder.assignTop, hst, CSlot.close, CSlot.put,
              CSlot.savedKey]
  | .obj es =>
      have hsplit : nodupKeys (es.map Prod.fst) = true ∧ noDupKeysE es = true := by
        have := h
        rw [show noDupKeys (.obj es) =
          (nodupKeys (es.map Prod.fst) && noDupKeysE es) from rfl,
          Bool.and_eq_true] at this
        exact this
      have h1 : b.event .start_map = ⟨b.key, b.value, .mapS [] b.key :: b.stack⟩ := by
        cases b; rfl
      obtain ⟨k, hk⟩ := runB_toEventsE es hsplit.2 b.key b.value [] b.key b.stack
      refine ⟨k, ?_⟩
      rw [show toEvents (.obj es) = .start_map :: (toEventsE es ++ [.end_map]) from rfl,
        runB_cons, h1, runB_append, hk,
        foldUpsert_of_nodup [] es (by simpa using nodup_of_nodupKeys _ hsplit.1)]
      show Builder.event _ .end_map = _
      cases hst : b.stack with
      | nil => simp [Builder.event, Builder.assignTop, hst, CSlot.close]
      | cons s rest =>
          cases s <;>
            simp [Builder.event, Builder.assignTop, hst, CSlot.close, CSlot.put,
              CSlot.savedKey]

termination_by sizeOf V

/-- Running the member events of an array with an array slot on top appends
the members to it. -/
theorem runB_toEventsL (xs : List JValue) (h : noDupKeysL xs = true)
    (k0 : String) (w : Option JValue) (acc : List JValue) (pk : String)
    (rest : List CSlot) :
    ∃ k, runB ⟨k0, w, .arrS acc pk :: rest⟩ (toEventsL xs) =
      ⟨k, w, .arrS (acc ++ xs) pk :: rest⟩ := by
  match xs with
  | [] => exact ⟨k0, by simp [toEventsL, runB_nil]⟩
  | x :: xs' =>
      have hx : noDupKeys x = true ∧ noDupKeysL xs' = true := by
        have := h
        rw [show noDupKeysL (x :: xs') = (noDupKeys x && noDupKeysL xs') from rfl,
          Bool.and_eq_true] at this
        exact this
      obtain ⟨k1, hk1⟩ := runB_toEvents x hx.1 ⟨k0, w, .arrS acc pk :: rest⟩
      have hassign : (⟨k0, w, .arrS acc pk :: rest⟩ : Builder).assignTop x =
          ⟨k0, w, .arrS (acc ++ [x]) pk :: rest⟩ := rfl
      obtain ⟨k2, hk2⟩ := runB_toEventsL xs' hx.2 k1 w (acc ++ [x]) pk rest
      refine ⟨k2, ?_⟩
      rw [show toEventsL (x :: xs') = toEvents x ++ toEventsL xs' from rfl,
        runB_append, hk1, hassign]
      simpa [List.append_assoc] using hk2

termination_by sizeOf xs

/-- Running the entry events of an object with a map slot on top performs
the corresponding sequence of keyed assignments (`upsert` fold). -/
theorem runB_toEventsE (es : List (String × JValue)) (h : noDupKeysE es = true)
    (k0 : String) (w : Option JValue) (acc : List (String × JValue)) (pk : String)
    (rest : List CSlot) :
    ∃ k, runB ⟨k0, w, .mapS acc pk :: rest⟩ (toEventsE es) =
      ⟨k, w, .mapS (foldUpsert acc es) pk :: rest⟩ := by
  match es with
  | [] => exact ⟨k0, by simp [toEventsE, runB_nil, foldUpsert]⟩
  | (ky, v) :: es' =>
      have hv : noDupKeys v = true ∧ noDupKeysE es' = true := by
        have := h
        rw [show noDupKeysE ((ky, v) :: es') = (noDupKeys v && noDupKeysE es') from rfl,
          Bool.and_eq_true] at this
        exact this
      have hkey : (⟨k0, w, .mapS acc pk :: rest⟩ : Builder).event (.map_key ky) =
          ⟨ky, w, .mapS acc pk :: rest⟩ := rfl
      obtain ⟨k1, hk1⟩ := runB_toEvents v hv.1 ⟨ky, w, .mapS acc pk :: rest⟩
      have hassign : (⟨ky, w, .mapS acc pk :: rest⟩ : Builder).assignTop v =
          ⟨ky, w, .mapS (upsert acc ky v) pk :: rest⟩ := rfl
      obtain ⟨k2, hk2⟩ := runB_toEventsE es' hv.2 k1 w (upsert acc ky v) pk rest
      refine ⟨k2, ?_⟩
      rw [show toEventsE ((ky, v) :: es') = .map_key ky :: (toEvents v ++ toEventsE es')
          from rfl, runB_cons, hkey, runB_append, hk1, hassign,
        show foldUpsert acc ((ky, v) :: es') = foldUpsert (upsert acc ky v) es' from rfl]
      exact hk2
termination_by sizeOf es
end

/-! ## Path annotator correctness -/

theorem allSome_map_some (p : List String) : allSome (p.map some) = some p := by
  induction p with
  | nil => rfl
  | cons s rest ih => simp [allSome, ih]

theorem joinP_map_some (p : List String) : joinP (p.map some) = some (joinDot p) := by
  simp [joinP, allSome_map_some]

theorem parseRun_nil (path : List (Option String)) :
    parseRun path [] = ([], path, none) := rfl

theorem parseRun_cons (path : List (Option String)) (e : Event) (rest : List Event) :
    parseRun path (e :: rest) =
      match pstep path e with
      | .error err => ([], path, some err)
      | .ok (pfx, path') =>
          ((pfx, e) :: (parseRun path' rest).1, (parseRun path' rest).2) := rfl

theorem parseRun_cons_ok (path : List (Option String)) (e : Event) (pfx : String)
    (path' : List (Option String)) (rest : List Event)
    (h : pstep path e = .ok (pfx, path')) :
    parseRun path (e :: rest) =
      ((pfx, e) :: (parseRun path' rest).1, (parseRun path' rest).2) := by
  rw [parseRun_cons, h]

theorem parseRun_cons_err (path : List (Option String)) (e : Event) (err : PErr)
    (rest : List Event) (h : pstep path e = .error err) :
    parseRun path (e :: rest) = ([], path, some err) := by
  rw [parseRun_cons, h]

theorem pstep_end_map_concat (l : List (Option String)) (x : Option String) :
    pstep (l ++ [x]) .end_map =
      match joinP l with
      | none => .error PErr.typeError
      | some pfx => .ok (pfx, l) := by
  have hd : (l ++ [x]).dropLast = l := List.dropLast_concat ..
  cases hl : l ++ [x] with
  | nil => simp at hl
  | cons a t =>
      rw [hl] at hd
      show (match joinP (a :: t).dropLast with
        | none => Except.error PErr.typeError
        | some pfx => Except.ok (pfx, (a :: t).dropLast)) = _
      rw [hd]

theorem pstep_end_array_concat (l : List (Option String)) (x : Option String) :
    pstep (l ++ [x]) .end_array =
      match joinP l with
      | none => .error PErr.typeError
      | some pfx => .ok (pfx, l) := by
  have hd : (l ++ [x]).dropLast = l := List.dropLast_concat ..
  cases hl : l ++ [x] with
  | nil => simp at hl
  | cons a t =>
      rw [hl] at hd
      show (match joinP (a :: t).dropLast with
        | none => Except.error PErr.typeError
        | some pfx => Except.ok (pfx, (a :: t).dropLast)) = _
      rw [hd]

/-- A successful run composes: the second half resumes from the first
half's final path. -/
theorem parseRun_append_ok (as : List Event) (bs : List Event)
    (path p1 : List (Option String)) (o1 : List (String × Event))
    (h : parseRun path as = (o1, p1, none)) :
    parseRun path (as ++ bs) = (o1 ++ (parseRun p1 bs).1, (parseRun p1 bs).2) := by
  induction as generalizing path o1 with
  | nil =>
      rw [parseRun_nil, Prod.mk.injEq, Prod.mk.injEq] at h
      obtain ⟨h1, h2, -⟩ := h
      subst h1; subst h2
      simp
  | cons e as' ih =>
      cases hstep : pstep path e with
      | error err =>
          rw [parseRun_cons_err path e err as' hstep] at h
          simp at h
      | ok pr =>
          obtain ⟨pfx, path'⟩ := pr
          rw [parseRun_cons_ok path e pfx path' as' hstep] at h
          rcases hr : parseRun path' as' with ⟨o2, p2, e2⟩
          rw [hr] at h
          simp only [Prod.mk.injEq] at h
          obtain ⟨h1, h2, h3⟩ := h
          subst h1
          rw [show (e :: as') ++ bs = e :: (as' ++ bs) from rfl,
            parseRun_cons_ok path e pfx path' (as' ++ bs) hstep,
            ih path' o2 (by rw [hr, h2, h3])]
          simp

mutual
/-- `parse`, consuming the event encoding of `V` from an all-set path `p`,
emits exactly the prefixed events `annotV p V`, restores the path, and
never faults. -/
theorem parseRun_toEvents (V : JValue) (p : List String) :
    parseRun (p.map some) (toEvents V) = (annotV p V, p.map some, none) := by
  match V with
  | .null =>
      rw [show toEvents .null = [.null] from rfl,
        parseRun_cons_ok _ _ (joinDot p) (p.map some) []
          (by simp [pstep, joinP_map_some]),
        parseRun_nil]
      rfl
  | .bool b =>
      rw [show toEvents (.bool b) = [.boolean b] from rfl,
        parseRun_cons_ok _ _ (joinDot p) (p.map some) []
          (by simp [pstep, joinP_map_some]),
        parseRun_nil]
      rfl
  | .num n =>
      rw [show toEvents (.num n) = [.number n] from rfl,
        parseRun_cons_ok _ _ (joinDot p) (p.map some) []
          (by simp [pstep, joinP_map_some]),
        parseRun_nil]
      rfl
  | .str s =>
      rw [show toEvents (.str s) = [.string s] from rfl,
        parseRun_cons_ok _ _ (joinDot p) (p.map some) []
          (by simp [pstep, joinP_map_some]),
        parseRun_nil]
      rfl
  | .arr xs =>
      have hstep : pstep (p.map some) .start_array =
          .ok (joinDot p, (p ++ ["item"]).map some) := by
        simp [pstep, joinP_map_some]
      have hL := parseRun_toEventsL xs (p ++ ["item"])
      have hstepend : pstep ((p ++ ["item"]).map some) .end_array =
          .ok (joinDot p, p.map some) := by
        rw [show (p ++ ["item"]).map some = p.map some ++ [some "item"] by simp,
          pstep_end_array_concat, joinP_map_some]
      have hend : parseRun ((p ++ ["item"]).map some) [.end_array] =
          ([(joinDot p, .end_array)], p.map some, none) := by
        rw [parseRun_cons_ok _ _ _ _ [] hstepend, parseRun_nil]
      rw [show toEvents (.arr xs) = .start_array :: (toEventsL xs ++ [.end_array])
          from rfl,
        parseRun_cons_ok _ _ _ _ _ hstep,
        parseRun_append_ok (toEventsL xs) [.end_array] _ _ _ hL, hend]
      simp [annotV]
  | .obj es =>
      have hstep : pstep (p.map some) .start_map =
          .ok (joinDot p, p.map some ++ [none]) := by
        simp [pstep, joinP_map_some]
      obtain ⟨x', hE⟩ := parseRun_toEventsE es p none
      have hstepend : pstep (p.map some ++ [x']) .end_map =
          .ok (joinDot p, p.map some) := by
        rw [pstep_end_map_concat, joinP_map_some]
      have hend : parseRun (p.map some ++ [x']) [.end_map] =
          ([(joinDot p, .end_map)], p.map some, none) := by
        rw [parseRun_cons_ok _ _ _ _ [] hstepend, parseRun_nil]
      rw [show toEvents (.obj es) = .start_map :: (toEventsE es ++ [.end_map])
          from rfl,
        parseRun_cons_ok _ _ _ _ _ hstep,
        parseRun_append_ok (toEventsE es) [.end_map] _ _ _ hE, hend]
      simp [annotV]
termination_by sizeOf V

/-- Array members: the path is preserved across each member. -/
theorem parseRun_toEventsL (xs : List JValue) (q : List String) :
    parseRun (q.map some) (toEventsL xs) = (annotL q xs, q.map some, none) := by
  match xs with
  | [] => simp [toEventsL, annotL, parseRun_nil]
  | x :: xs' =>
      have h1 := parseRun_toEvents x q
      have h2 := parseRun_toEventsL xs' q
      rw [show toEventsL (x :: xs') = toEvents x ++ toEventsL xs' from rfl,
        parseRun_append_ok (toEvents x) (toEventsL xs') _ _ _ h1, h2]
      simp [annotL]
termination_by sizeOf xs

/-- Object entries from a path whose last segment is the pending
placeholder (or a previously seen key): each `map_key` replaces it. -/
theorem parseRun_toEventsE (es : List (String × JValue)) (p : List String)
    (x : Option String) :
    ∃ x', parseRun (p.map some ++ [x]) (toEventsE es) =
      (annotE p es, p.map some ++ [x'], none) := by
  match es with
  | [] => exact ⟨x, by simp [toEventsE, annotE, parseRun_nil]⟩
  | (k, v) :: es' =>
      have hstep : pstep (p.map some ++ [x]) (.map_key k) =
          .ok (joinDot p, p.map some ++ [some k]) := by
        simp [pstep, List.dropLast_concat, joinP_map_some]
      have h1 := parseRun_toEvents v (p ++ [k])
      have h1' : parseRun (p.map some ++ [some k]) (toEvents v) =
          (annotV (p ++ [k]) v, p.map some ++ [some k], none) := by
        simpa using h1
      obtain ⟨x', h2⟩ := parseRun_toEventsE es' p (some k)
      refine ⟨x', ?_⟩
      rw [show toEventsE ((k, v) :: es') = .map_key k ::
          (toEvents v ++ toEventsE es') from rfl,
        parseRun_cons_ok _ _ _ _ _ hstep,
        parseRun_append_ok (toEvents v) (toEventsE es') _ _ _ h1', h2]
      simp [annotE]
termination_by sizeOf es
end

/-! ## Unambiguous joining of good segments -/

theorem joinDot_cons₂ (s t : String) (rest : List String) :
    joinDot (s :: t :: rest) = s ++ "." ++ joinDot (t :: rest) := rfl

theorem goodSeg_ne_nil (s : String) (h : goodSeg s = true) : s.data ≠ [] := by
  simp [goodSeg] at h
  exact h.1

theorem goodSeg_not_dot (s : String) (h : goodSeg s = true) : '.' ∉ s.data := by
  simp [goodSeg] at h
  exact h.2

theorem goodSegs_cons (a : String) (l : List String) :
    goodSegs (a :: l) = true ↔ goodSeg a = true ∧ goodSegs l = true := by
  simp [goodSegs]

theorem joinDot_data_cons₂ (a t : String) (r : List String) :
    (joinDot (a :: t :: r)).data = a.data ++ '.' :: (joinDot (t :: r)).data := by
  rw [joinDot_cons₂, String.data_append, String.data_append,
    show (".").data = ['.'] from rfl]
  simp

/-- Splitting a character list at an unambiguous first dot. -/
theorem dot_split (xs : List Char) : ∀ (ys u v : List Char),
    '.' ∉ xs → '.' ∉ ys → xs ++ '.' :: u = ys ++ '.' :: v → xs = ys ∧ u = v := by
  induction xs with
  | nil =>
      intro ys u v _ hy h
      cases ys with
      | nil => simpa using h
      | cons b ys' =>
          exfalso
          simp only [List.nil_append, List.cons_append] at h
          injection h with hb _
          subst hb
          exact hy (List.mem_cons_self ..)
  | cons a xs' ih =>
      intro ys u v hx hy h
      cases ys with
      | nil =>
          exfalso
          simp only [List.cons_append, List.nil_append] at h
          injection h with hb _
          subst hb
          exact hx (List.mem_cons_self ..)
      | cons b ys' =>
          simp only [List.cons_append] at h
          injection h with hab ht
          obtain ⟨h1, h2⟩ := ih ys' u v
            (fun hm => hx (List.mem_cons_of_mem _ hm))
            (fun hm => hy (List.mem_cons_of_mem _ hm)) ht
          exact ⟨by rw [hab, h1], h2⟩

/-- `'.'.join` is injective on lists of nonempty dot-free segments. -/
theorem joinDot_inj (l1 : List String) : ∀ (l2 : List String),
    goodSegs l1 = true → goodSegs l2 = true → joinDot l1 = joinDot l2 → l1 = l2 := by
  induction l1 with
  | nil =>
      intro l2 _ h2 h
      cases l2 with
      | nil => rfl
      | cons b l2' =>
          exfalso
          have hb : goodSeg b = true := ((goodSegs_cons b l2').mp h2).1
          cases l2' with
          | nil =>
              exact goodSeg_ne_nil b hb (by rw [show joinDot [b] = b from rfl] at h
                                            rw [← h]; rfl)
          | cons c l2'' =>
              have hd := congrArg String.data h
              rw [joinDot_data_cons₂, show (joinDot []).data = [] from rfl] at hd
              exact absurd hd.symm (by simp)
  | cons a l1' ih =>
      intro l2 h1 h2 h
      have ha : goodSeg a = true := ((goodSegs_cons a l1').mp h1).1
      have h1' : goodSegs l1' = true := ((goodSegs_cons a l1').mp h1).2
      cases l2 with
      | nil =>
          exfalso
          cases l1' with
          | nil =>
              exact goodSeg_ne_nil a ha (by rw [show joinDot [a] = a from rfl] at h
                                            rw [h]; rfl)
          | cons c l1'' =>
              have hd := congrArg String.data h
              rw [joinDot_data_cons₂, show (joinDot []).data = [] from rfl] at hd
              exact absurd hd (by simp)
      | cons b l2' =>
          have hb : goodSeg b = true := ((goodSegs_cons b l2').mp h2).1
          have h2' : goodSegs l2' = true := ((goodSegs_cons b l2').mp h2).2
          cases l1' with
          | nil =>
              cases l2' with
              | nil =>
                  rw [show joinDot [a] = a from rfl, show joinDot [b] = b from rfl] at h
                  rw [h]
              | cons c l2'' =>
                  exfalso
                  have hd := congrArg String.data h
                  rw [show (joinDot [a]).data = a.data from rfl, joinDot_data_cons₂] at hd
                  exact goodSeg_not_dot a ha (by rw [hd]; simp)
          | cons c l1'' =>
              cases l2' with
              | nil =>
                  exfalso
                  have hd := congrArg String.data h
                  rw [show (joinDot [b]).data = b.data from rfl, joinDot_data_cons₂] at hd
                  exact goodSeg_not_dot b hb (by rw [← hd]; simp)
              | cons d l2'' =>
                  have hd := congrArg String.data h
                  rw [joinDot_data_cons₂, joinDot_data_cons₂] at hd
                  obtain ⟨hab, ht⟩ := dot_split a.data b.data _ _
                    (goodSeg_not_dot a ha) (goodSeg_not_dot b hb) hd
                  rw [String.ext hab,
                    ih (d :: l2'') h1' h2' (String.ext ht)]

/-! ## Remainder of a target below a path -/

theorem rem?_eq_some (p : List String) : ∀ T t, rem? p T = some t → T = p ++ t := by
  induction p with
  | nil => intro T t h; simpa [rem?] using h
  | cons a p' ih =>
      intro T t h
      cases T with
      | nil => simp [rem?] at h
      | cons b T' =>
          rw [show rem? (a :: p') (b :: T') = (if a = b then rem? p' T' else none)
            from rfl] at h
          by_cases hab : a = b
          · rw [if_pos hab] at h
            rw [List.cons_append, ih T' t h, hab]
          · rw [if_neg hab] at h
            exact absurd h (by simp)

theorem rem?_self (p : List String) : rem? p p = some [] := by
  induction p with
  | nil => rfl
  | cons a p' ih => simp [rem?, ih]

theorem rem?_append_self (p ext : List String) : rem? p (p ++ ext) = some ext := by
  induction p with
  | nil => rfl
  | cons a p' ih => simp [rem?, ih]

theorem rem?_concat (p : List String) (x : String) (T : List String) :
    rem? (p ++ [x]) T =
      match rem? p T with
      | some (t1 :: t') => if x = t1 then some t' else none
      | _ => none := by
  induction p generalizing T with
  | nil =>
      cases T with
      | nil => rfl
      | cons b T' => rfl
  | cons a p' ih =>
      cases T with
      | nil => rfl
      | cons b T' =>
          simp only [List.cons_append, rem?]
          by_cases hab : a = b
          · rw [if_pos hab, if_pos hab]
            exact ih T'
          · rw [if_neg hab, if_neg hab]

/-- Two joins of good segment lists differ unless the target equals the
path. -/
theorem joinDot_ne_of_rem (p T : List String) (hp : goodSegs p = true)
    (hT : goodSegs T = true) (h : rem? p T ≠ some []) :
    joinDot p ≠ joinDot T := by
  intro he
  have := joinDot_inj p T hp hT he
  subst this
  exact h (rem?_self p)

/-! ## Shape of the annotated event streams -/

mutual
theorem annotV_snd (V : JValue) (p : List String) :
    (annotV p V).map Prod.snd = toEvents V := by
  match V with
  | .null => rfl
  | .bool b => rfl
  | .num n => rfl
  | .str s => rfl
  | .arr xs => simp [annotV, toEvents, annotL_snd xs (p ++ ["item"])]
  | .obj es => simp [annotV, toEvents, annotE_snd es p]
termination_by sizeOf V

theorem annotL_snd (xs : List JValue) (q : List String) :
    (annotL q xs).map Prod.snd = toEventsL xs := by
  match xs with
  | [] => rfl
  | x :: xs' => simp [annotL, toEventsL, annotV_snd x q, annotL_snd xs' q]
termination_by sizeOf xs

theorem annotE_snd (es : List (String × JValue)) (p : List String) :
    (annotE p es).map Prod.snd = toEventsE es := by
  match es with
  | [] => rfl
  | (k, v) :: es' =>
      simp [annotE, toEventsE, annotV_snd v (p ++ [k]), annotE_snd es' p]
termination_by sizeOf es
end

theorem goodSegs_append (l1 l2 : List String) :
    goodSegs (l1 ++ l2) = true ↔ goodSegs l1 = true ∧ goodSegs l2 = true := by
  simp [goodSegs]

mutual
/-- Every prefix emitted inside `annotV p V` is the join of a good
extension of `p`. -/
theorem annotV_pref (V : JValue) (p : List String) (hp : goodSegs p = true)
    (hV : goodKeys V = true) :
    ∀ pe ∈ annotV p V, ∃ ext, pe.1 = joinDot (p ++ ext) ∧
      goodSegs (p ++ ext) = true := by
  match V with
  | .null =>
      intro pe hpe
      rw [show annotV p .null = [(joinDot p, .null)] from rfl] at hpe
      simp at hpe
      exact ⟨[], by simp [hpe, hp]⟩
  | .bool b =>
      intro pe hpe
      rw [show annotV p (.bool b) = [(joinDot p, .boolean b)] from rfl] at hpe
      simp at hpe
      exact ⟨[], by simp [hpe, hp]⟩
  | .num n =>
      intro pe hpe
      rw [show annotV p (.num n) = [(joinDot p, .number n)] from rfl] at hpe
      simp at hpe
      exact ⟨[], by simp [hpe, hp]⟩
  | .str s =>
      intro pe hpe
      rw [show annotV p (.str s) = [(joinDot p, .string s)] from rfl] at hpe
      simp at hpe
      exact ⟨[], by simp [hpe, hp]⟩
  | .arr xs =>
      intro pe hpe
      have hq : goodSegs (p ++ ["item"]) = true := by
        rw [goodSegs_append]
        exact ⟨hp, by decide⟩
      have hxs : goodKeysL xs = true := by
        have := hV
        rwa [show goodKeys (.arr xs) = goodKeysL xs from rfl] at this
      rw [show annotV p (.arr xs) = (joinDot p, .start_array) ::
        (annotL (p ++ ["item"]) xs ++ [(joinDot p, .end_array)]) from rfl] at hpe
      rcases List.mem_cons.mp hpe with h1 | h2
      · exact ⟨[], by simp [h1, hp]⟩
      · rcases List.mem_append.mp h2 with h3 | h4
        · obtain ⟨ext, he, hg⟩ := annotL_pref xs (p ++ ["item"]) hq hxs pe h3
          exact ⟨"item" :: ext, by
            constructor
            · rw [he, List.append_assoc]; rfl
            · rw [show p ++ "item" :: ext = (p ++ ["item"]) ++ ext by simp]
              exact hg⟩
        · simp at h4
          exact ⟨[], by simp [h4, hp]⟩
  | .obj es =>
      intro pe hpe
      have hes : goodKeysE es = true := by
        have := hV
        rwa [show goodKeys (.obj es) = goodKeysE es from rfl] at this
      rw [show annotV p (.obj es) = (joinDot p, .start_map) ::
        (annotE p es ++ [(joinDot p, .end_map)]) from rfl] at hpe
      rcases List.mem_cons.mp hpe with h1 | h2
      · exact ⟨[], by simp [h1, hp]⟩
      · rcases List.mem_append.mp h2 with h3 | h4
        · exact annotE_pref es p hp hes pe h3
        · simp at h4
          exact ⟨[], by simp [h4, hp]⟩
termination_by sizeOf V

theorem annotL_pref (xs : List JValue) (q : List String) (hq : goodSegs q = true)
    (hxs : goodKeysL xs = true) :
    ∀ pe ∈ annotL q xs, ∃ ext, pe.1 = joinDot (q ++ ext) ∧
      goodSegs (q ++ ext) = true := by
  match xs with
  | [] => intro pe hpe; rw [show annotL q [] = [] from rfl] at hpe; simp at hpe
  | x :: xs' =>
      intro pe hpe
      have hx : goodKeys x = true ∧ goodKeysL xs' = true := by
        have := hxs
        rw [show goodKeysL (x :: xs') = (goodKeys x && goodKeysL xs') from rfl,
          Bool.and_eq_true] at this
        exact this
      rw [show annotL q (x :: xs') = annotV q x ++ annotL q xs' from rfl] at hpe
      rcases List.mem_append.mp hpe with h1 | h2
      · exact annotV_pref x q hq hx.1 pe h1
      · exact annotL_pref xs' q hq hx.2 pe h2
termination_by sizeOf xs

theorem annotE_pref (es : List (String × JValue)) (p : List String)
    (hp : goodSegs p = true) (hes : goodKeysE es = true) :
    ∀ pe ∈ annotE p es, ∃ ext, pe.1 = joinDot (p ++ ext) ∧
      goodSegs (p ++ ext) = true := by
  match es with
  | [] => intro pe hpe; rw [show annotE p [] = [] from rfl] at hpe; simp at hpe
  | (k, v) :: es' =>
      intro pe hpe
      have hkv : goodSeg k = true ∧ goodKeys v = true ∧ goodKeysE es' = true := by
        have := hes
        rw [show goodKeysE ((k, v) :: es') =
          (goodSeg k && goodKeys v && goodKeysE es') from rfl,
          Bool.and_eq_true, Bool.and_eq_true] at this
        exact ⟨this.1.1, this.1.2, this.2⟩
      have hpk : goodSegs (p ++ [k]) = true := by
        rw [goodSegs_append]
        exact ⟨hp, by simp [goodSegs, hkv.1]⟩
      rw [show annotE p ((k, v) :: es') = (joinDot p, .map_key k) ::
        (annotV (p ++ [k]) v ++ annotE p es') from rfl] at hpe
      rcases List.mem_cons.mp hpe with h1 | h2
      · exact ⟨[], by simp [h1, hp]⟩
      · rcases List.mem_append.mp h2 with h3 | h4
        · obtain ⟨ext, he, hg⟩ := annotV_pref v (p ++ [k]) hpk hkv.2.1 pe h3
          exact ⟨k :: ext, by
            constructor
            · rw [he, List.append_assoc]; rfl
            · rw [show p ++ k :: ext = (p ++ [k]) ++ ext by simp]
              exact hg⟩
        · exact annotE_pref es' p hp hkv.2.2 pe h4
termination_by sizeOf es
end

/-- Inside the entry list of an object at path `p`, the only events emitted
at the container's own prefix are the `map_key`s. -/
theorem annotE_at_base (es : List (String × JValue)) (p : List String)
    (hp : goodSegs p = true) (hes : goodKeysE es = true) :
    ∀ pe ∈ annotE p es, pe.1 = joinDot p → ∃ k, pe.2 = Event.map_key k := by
  induction es with
  | nil => intro pe hpe; rw [show annotE p [] = [] from rfl] at hpe; simp at hpe
  | cons kv es' ih =>
      obtain ⟨k, v⟩ := kv
      have hkv : goodSeg k = true ∧ goodKeys v = true ∧ goodKeysE es' = true := by
        have := hes
        rw [show goodKeysE ((k, v) :: es') =
          (goodSeg k && goodKeys v && goodKeysE es') from rfl,
          Bool.and_eq_true, Bool.and_eq_true] at this
        exact ⟨this.1.1, this.1.2, this.2⟩
      have hpk : goodSegs (p ++ [k]) = true := by
        rw [goodSegs_append]
        exact ⟨hp, by simp [goodSegs, hkv.1]⟩
      intro pe hpe hbase
      rw [show annotE p ((k, v) :: es') = (joinDot p, .map_key k) ::
        (annotV (p ++ [k]) v ++ annotE p es') from rfl] at hpe
      rcases List.mem_cons.mp hpe with h1 | h2
      · exact ⟨k, by rw [h1]⟩
      · rcases List.mem_append.mp h2 with h3 | h4
        · obtain ⟨ext, he, hg⟩ := annotV_pref v (p ++ [k]) hpk hkv.2.1 pe h3
          exfalso
          have : (p ++ [k]) ++ ext = p := by
            refine joinDot_inj _ _ hg hp ?_
            rw [← he, hbase]
          have hlen := congrArg List.length this
          simp at hlen
        · exact ih hkv.2.2 pe h4 hbase

/-- Events of array members at path `p ++ [x]` are never emitted at the
array's own prefix `p`. -/
theorem annotL_ne_base (xs : List JValue) (p : List String) (x : String)
    (hp : goodSegs p = true) (hx : goodSeg x = true) (hxs : goodKeysL xs = true) :
    ∀ pe ∈ annotL (p ++ [x]) xs, pe.1 ≠ joinDot p := by
  intro pe hpe hbase
  have hq : goodSegs (p ++ [x]) = true := by
    rw [goodSegs_append]
    exact ⟨hp, by simp [goodSegs, hx]⟩
  obtain ⟨ext, he, hg⟩ := annotL_pref xs (p ++ [x]) hq hxs pe hpe
  have : (p ++ [x]) ++ ext = p := by
    refine joinDot_inj _ _ hg hp ?_
    rw [← he, hbase]
  have hlen := congrArg List.length this
  simp at hlen

/-! ## Capture regions -/

theorem valueNow_capture_map (es : List (String × JValue))
    (hk : nodupKeys (es.map Prod.fst) = true) (hnd : noDupKeysE es = true) :
    (runB (Builder.init.event .start_map) (toEventsE es)).valueNow =
      some (.obj es) := by
  obtain ⟨k, hk2⟩ := runB_toEventsE es hnd "" none [] "" []
  rw [show Builder.init.event .start_map = ⟨"", none, [.mapS [] ""]⟩ from rfl, hk2,
    foldUpsert_of_nodup [] es (by simpa using nodup_of_nodupKeys _ hk)]
  rfl

theorem valueNow_capture_arr (xs : List JValue) (hnd : noDupKeysL xs = true) :
    (runB (Builder.init.event .start_array) (toEventsL xs)).valueNow =
      some (.arr xs) := by
  obtain ⟨k, hk2⟩ := runB_toEventsL xs hnd "" none [] "" []
  rw [show Builder.init.event .start_array = ⟨"", none, [.arrS [] ""]⟩ from rfl, hk2]
  rfl

/-- The inner loop feeds every event before the matching
`(prefix, end_event)` pair to the builder, yields the builder's value, and
hands the remaining stream back to the outer loop. -/
theorem captureGo_through (pfx : String) (endE : Event) (ys : List (String × Event)) :
    ∀ (b : Builder) (rest : List (String × Event)),
    (∀ pe ∈ ys, ¬(pe.1 = pfx ∧ pe.2 = endE)) →
    itemsLoop pfx (.capture endE b) (ys ++ (pfx, endE) :: rest) =
      (match (runB b (ys.map Prod.snd)).valueNow with
       | some v => v | none => .null) :: itemsLoop pfx .scan rest := by
  induction ys with
  | nil =>
      intro b rest _
      show itemsLoop pfx (.capture endE b) ((pfx, endE) :: rest) = _
      simp [itemsLoop, runB_nil]
  | cons pe ys' ih =>
      intro b rest hcond
      obtain ⟨c, e⟩ := pe
      have hne : ¬(c = pfx ∧ e = endE) := hcond (c, e) (List.mem_cons_self ..)
      show itemsLoop pfx (.capture endE b) ((c, e) :: (ys' ++ (pfx, endE) :: rest)) = _
      rw [show itemsLoop pfx (.capture endE b) ((c, e) :: (ys' ++ (pfx, endE) :: rest)) =
        if c = pfx ∧ e = endE then
          (match b.valueNow with | some v => v | none => .null) ::
            itemsLoop pfx .scan (ys' ++ (pfx, endE) :: rest)
        else itemsLoop pfx (.capture endE (b.event e)) (ys' ++ (pfx, endE) :: rest)
        from rfl, if_neg hne,
        ih (b.event e) rest (fun q hq => hcond q (List.mem_cons_of_mem _ hq))]
      rfl

theorem itemsLoop_scan_ne (pfx c : String) (e : Event) (l : List (String × Event))
    (h : c ≠ pfx) :
    itemsLoop pfx .scan ((c, e) :: l) = itemsLoop pfx .scan l := by
  rw [show itemsLoop pfx .scan ((c, e) :: l) =
    if c = pfx then
      (match e with
       | .start_map =>
           itemsLoop pfx (.capture .end_map (Builder.init.event .start_map)) l
       | .start_array =>
           itemsLoop pfx (.capture .end_array (Builder.init.event .start_array)) l
       | _ => e.value :: itemsLoop pfx .scan l)
    else itemsLoop pfx .scan l from rfl, if_neg h]

theorem itemsLoop_scan_start_map (pfx : String) (l : List (String × Event)) :
    itemsLoop pfx .scan ((pfx, .start_map) :: l) =
      itemsLoop pfx (.capture .end_map (Builder.init.event .start_map)) l := by
  simp [itemsLoop]

theorem itemsLoop_scan_start_array (pfx : String) (l : List (String × Event)) :
    itemsLoop pfx .scan ((pfx, .start_array) :: l) =
      itemsLoop pfx (.capture .end_array (Builder.init.event .start_array)) l := by
  simp [itemsLoop]

theorem itemsLoop_scan_at (pfx : String) (e : Event) (l : List (String × Event))
    (h1 : e ≠ .start_map) (h2 : e ≠ .start_array) :
    itemsLoop pfx .scan ((pfx, e) :: l) = e.value :: itemsLoop pfx .scan l := by
  cases e <;>
    first
    | exact absurd rfl h1
    | exact absurd rfl h2
    | simp [itemsLoop]

/-! ## Prefix filtering against the document walk -/

mutual
/-- `items` on the annotated events of `V` at path `p`, with target `T`,
yields exactly the walk occurrences of `T` inside `V` (and continues with
whatever follows), provided all keys and target segments are nonempty,
dot-free and maps have unique keys. -/
theorem itemsM (V : JValue) (p T : List String) (rest : List (String × Event))
    (hp : goodSegs p = true) (hT : goodSegs T = true)
    (hV : goodKeys V = true) (hnd : noDupKeys V = true) :
    itemsLoop (joinDot T) .scan (annotV p V ++ rest) =
      occursRem (rem? p T) V ++ itemsLoop (joinDot T) .scan rest := by
  match V with
  | .null =>
      rw [show annotV p .null = [(joinDot p, .null)] from rfl, List.singleton_append]
      cases hc : rem? p T with
      | some t =>
          cases t with
          | nil =>
              have hpT : T = p := by simpa using rem?_eq_some p T [] hc
              rw [hpT]
              rw [itemsLoop_scan_at _ _ _ (by simp) (by simp)]
              simp [occursRem, occurs, Event.value]
          | cons t1 t' =>
              have hj : joinDot p ≠ joinDot T :=
                joinDot_ne_of_rem p T hp hT (by simp [hc])
              rw [itemsLoop_scan_ne _ _ _ _ hj]
              simp [occursRem, occurs]
      | none =>
          have hj : joinDot p ≠ joinDot T :=
            joinDot_ne_of_rem p T hp hT (by simp [hc])
          rw [itemsLoop_scan_ne _ _ _ _ hj]
          simp [occursRem]
  | .bool bb =>
      rw [show annotV p (.bool bb) = [(joinDot p, .boolean bb)] from rfl,
        List.singleton_append]
      cases hc : rem? p T with
      | some t =>
          cases t with
          | nil =>
              have hpT : T = p := by simpa using rem?_eq_some p T [] hc
              rw [hpT]
              rw [itemsLoop_scan_at _ _ _ (by simp) (by simp)]
              simp [occursRem, occurs, Event.value]
          | cons t1 t' =>
              have hj : joinDot p ≠ joinDot T :=
                joinDot_ne_of_rem p T hp hT (by simp [hc])
              rw [itemsLoop_scan_ne _ _ _ _ hj]
              simp [occursRem, occurs]
      | none =>
          have hj : joinDot p ≠ joinDot T :=
            joinDot_ne_of_rem p T hp hT (by simp [hc])
          rw [itemsLoop_scan_ne _ _ _ _ hj]
          simp [occursRem]
  | .num n =>
      rw [show annotV p (.num n) = [(joinDot p, .number n)] from rfl,
        List.singleton_append]
      cases hc : rem? p T with
      | some t =>
          cases t with
          | nil =>
              have hpT : T = p := by simpa using rem?_eq_some p T [] hc
              rw [hpT]
              rw [itemsLoop_scan_at _ _ _ (by simp) (by simp)]
              simp [occursRem, occurs, Event.value]
          | cons t1 t' =>
              have hj : joinDot p ≠ joinDot T :=
                joinDot_ne_of_rem p T hp hT (by simp [hc])
              rw [itemsLoop_scan_ne _ _ _ _ hj]
              simp [occursRem, occurs]
      | none =>
          have hj : joinDot p ≠ joinDot T :=
            joinDot_ne_of_rem p T hp hT (by simp [hc])
          rw [itemsLoop_scan_ne _ _ _ _ hj]
          simp [occursRem]
  | .str sv =>
      rw [show annotV p (.str sv) = [(joinDot p, .string sv)] from rfl,
        List.singleton_append]
      cases hc : rem? p T with
      | some t =>
          cases t with
          | nil =>
              have hpT : T = p := by simpa using rem?_eq_some p T [] hc
              rw [hpT]
              rw [itemsLoop_scan_at _ _ _ (by simp) (by simp)]
              simp [occursRem, occurs, Event.value]
          | cons t1 t' =>
              have hj : joinDot p ≠ joinDot T :=
                joinDot_ne_of_rem p T hp hT (by simp [hc])
              rw [itemsLoop_scan_ne _ _ _ _ hj]
              simp [occursRem, occurs]
      | none =>
          have hj : joinDot p ≠ joinDot T :=
            joinDot_ne_of_rem p T hp hT (by simp [hc])
          rw [itemsLoop_scan_ne _ _ _ _ hj]
          simp [occursRem]
  | .arr xs =>
      have hq : goodSegs (p ++ ["item"]) = true := by
        rw [goodSegs_append]
        exact ⟨hp, by decide⟩
      have hxs : goodKeysL xs = true := by
        have := hV
        rwa [show goodKeys (.arr xs) = goodKeysL xs from rfl] at this
      have hndl : noDupKeysL xs = true := by
        have := hnd
        rwa [show noDupKeys (.arr xs) = noDupKeysL xs from rfl] at this
      rw [show annotV p (.arr xs) = (joinDot p, .start_array) ::
        (annotL (p ++ ["item"]) xs ++ [(joinDot p, .end_array)]) from rfl,
        List.cons_append, List.append_assoc, List.singleton_append]
      cases hc : rem? p T with
      | some t =>
          cases t with
          | nil =>
              have hpT : T = p := by simpa using rem?_eq_some p T [] hc
              rw [hpT]
              rw [itemsLoop_scan_start_array,
                captureGo_through (joinDot p) .end_array (annotL (p ++ ["item"]) xs)
                  _ rest
                  (fun pe hpe hand =>
                    annotL_ne_base xs p "item" hp (by decide) hxs pe hpe hand.1),
                annotL_snd, valueNow_capture_arr xs hndl]
              simp [occursRem, occurs]
          | cons t1 t' =>
              have hj : joinDot p ≠ joinDot T :=
                joinDot_ne_of_rem p T hp hT (by simp [hc])
              rw [itemsLoop_scan_ne _ _ _ _ hj,
                itemsM_L xs (p ++ ["item"]) T ((joinDot p, .end_array) :: rest)
                  hq hT hxs hndl,
                itemsLoop_scan_ne _ _ _ _ hj, rem?_concat p "item" T, hc]
              by_cases hit : t1 = "item"
              · simp [occursRem, occurs, hit]
              · have hit2 : ¬("item" = t1) := fun h => hit h.symm
                simp [occursRem, occurs, hit, hit2]
      | none =>
          have hj : joinDot p ≠ joinDot T :=
            joinDot_ne_of_rem p T hp hT (by simp [hc])
          rw [itemsLoop_scan_ne _ _ _ _ hj,
            itemsM_L xs (p ++ ["item"]) T ((joinDot p, .end_array) :: rest)
              hq hT hxs hndl,
            itemsLoop_scan_ne _ _ _ _ hj, rem?_concat p "item" T, hc]
          simp [occursRem]
  | .obj es =>
      have hes : goodKeysE es = true := by
        have := hV
        rwa [show goodKeys (.obj es) = goodKeysE es from rfl] at this
      have hsplit : nodupKeys (es.map Prod.fst) = true ∧ noDupKeysE es = true := by
        have := hnd
        rw [show noDupKeys (.obj es) =
          (nodupKeys (es.map Prod.fst) && noDupKeysE es) from rfl,
          Bool.and_eq_true] at this
        exact this
      rw [show annotV p (.obj es) = (joinDot p, .start_map) ::
        (annotE p es ++ [(joinDot p, .end_map)]) from rfl,
        List.cons_append, List.append_assoc, List.singleton_append]
      cases hc : rem? p T with
      | some t =>
          cases t with
          | nil =>
              have hpT : T = p := by simpa using rem?_eq_some p T [] hc
              rw [hpT]
              rw [itemsLoop_scan_start_map,
                captureGo_through (joinDot p) .end_map (annotE p es) _ rest
                  (fun pe hpe hand => by
                    obtain ⟨k, hk⟩ := annotE_at_base es p hp hes pe hpe hand.1
                    rw [hk] at hand
                    exact Event.noConfusion hand.2),
                annotE_snd, valueNow_capture_map es hsplit.1 hsplit.2]
              simp [occursRem, occurs]
          | cons t1 t' =>
              have hj : joinDot p ≠ joinDot T :=
                joinDot_ne_of_rem p T hp hT (by simp [hc])
              rw [itemsLoop_scan_ne _ _ _ _ hj,
                itemsM_E es p T ((joinDot p, .end_map) :: rest) hp hT hes hsplit.2
                  (by simp [hc]),
                itemsLoop_scan_ne _ _ _ _ hj, hc]
              simp [occursRem, occurs]
      | none =>
          have hj : joinDot p ≠ joinDot T :=
            joinDot_ne_of_rem p T hp hT (by simp [hc])
          rw [itemsLoop_scan_ne _ _ _ _ hj,
            itemsM_E es p T ((joinDot p, .end_map) :: rest) hp hT hes hsplit.2
              (by simp [hc]),
            itemsLoop_scan_ne _ _ _ _ hj, hc]
          simp [occursRem]
termination_by sizeOf V

theorem itemsM_L (xs : List JValue) (q T : List String)
    (rest : List (String × Event)) (hq : goodSegs q = true)
    (hT : goodSegs T = true) (hxs : goodKeysL xs = true)
    (hnd : noDupKeysL xs = true) :
    itemsLoop (joinDot T) .scan (annotL q xs ++ rest) =
      (match rem? q T with
       | some t => occursL t xs
       | none => []) ++ itemsLoop (joinDot T) .scan rest := by
  match xs with
  | [] =>
      rw [show annotL q [] = [] from rfl, List.nil_append]
      cases rem? q T with
      | some t => simp [occursL]
      | none => simp
  | x :: xs' =>
      have hx : goodKeys x = true ∧ goodKeysL xs' = true := by
        have := hxs
        rw [show goodKeysL (x :: xs') = (goodKeys x && goodKeysL xs') from rfl,
          Bool.and_eq_true] at this
        exact this
      have hn : noDupKeys x = true ∧ noDupKeysL xs' = true := by
        have := hnd
        rw [show noDupKeysL (x :: xs') = (noDupKeys x && noDupKeysL xs') from rfl,
          Bool.and_eq_true] at this
        exact this
      rw [show annotL q (x :: xs') = annotV q x ++ annotL q xs' from rfl,
        List.append_assoc,
        itemsM x q T (annotL q xs' ++ rest) hq hT hx.1 hn.1,
        itemsM_L xs' q T rest hq hT hx.2 hn.2]
      cases rem? q T with
      | some t => simp [occursRem, occursL]
      | none => simp [occursRem]
termination_by sizeOf xs

theorem itemsM_E (es : List (String × JValue)) (p T : List String)
    (rest : List (String × Event)) (hp : goodSegs p = true)
    (hT : goodSegs T = true) (hes : goodKeysE es = true)
    (hnd : noDupKeysE es = true) (hne : rem? p T ≠ some []) :
    itemsLoop (joinDot T) .scan (annotE p es ++ rest) =
      (match rem? p T with
       | some (t1 :: t') => occursE t1 t' es
       | _ => []) ++ itemsLoop (joinDot T) .scan rest := by
  match es with
  | [] =>
      rw [show annotE p [] = [] from rfl, List.nil_append]
      cases rem? p T with
      | some t => cases t <;> simp [occursE]
      | none => simp
  | (k, v) :: es' =>
      have hkv : goodSeg k = true ∧ goodKeys v = true ∧ goodKeysE es' = true := by
        have := hes
        rw [show goodKeysE ((k, v) :: es') =
          (goodSeg k && goodKeys v && goodKeysE es') from rfl,
          Bool.and_eq_true, Bool.and_eq_true] at this
        exact ⟨this.1.1, this.1.2, this.2⟩
      have hnv : noDupKeys v = true ∧ noDupKeysE es' = true := by
        have := hnd
        rw [show noDupKeysE ((k, v) :: es') = (noDupKeys v && noDupKeysE es')
          from rfl, Bool.and_eq_true] at this
        exact this
      have hpk : goodSegs (p ++ [k]) = true := by
        rw [goodSegs_append]
        exact ⟨hp, by simp [goodSegs, hkv.1]⟩
      have hjp : joinDot p ≠ joinDot T := joinDot_ne_of_rem p T hp hT hne
      rw [show annotE p ((k, v) :: es') = (joinDot p, .map_key k) ::
        (annotV (p ++ [k]) v ++ annotE p es') from rfl,
        List.cons_append, itemsLoop_scan_ne _ _ _ _ hjp, List.append_assoc,
        itemsM v (p ++ [k]) T (annotE p es' ++ rest) hpk hT hkv.2.1 hnv.1,
        itemsM_E es' p T rest hp hT hkv.2.2 hnv.2 hne,
        rem?_concat p k T]
      cases hc : rem? p T with
      | some t =>
          cases t with
          | nil => exact absurd hc hne
          | cons t1 t' =>
              by_cases hkt : k = t1
              · simp [occursRem, occursE, hkt]
              · have hkt2 : ¬(t1 = k) := fun h => hkt h.symm
                simp [occursRem, occursE, hkt, hkt2]
      | none => simp [occursRem]
termination_by sizeOf es
end

/-! ## Dual-stack balance -/

theorem ne_nil_of_getLast? {α : Type} (l : List α) (a : α)
    (h : l.getLast? = some a) : l ≠ [] := by
  intro hl
  rw [hl] at h
  simp at h

theorem putLast_length (l : List HFrame) (f : HFrame) (h : l ≠ []) :
    (putLast l f).length = l.length := by
  have := List.length_pos.mpr h
  simp [putLast]
  omega

theorem pushFrame_lens (st : HState) (fr : HFrame) :
    (pushFrame st fr).keys.length = st.keys.length + 1 ∧
    (pushFrame st fr).data.length = st.data.length + 1 := by
  simp [pushFrame]

theorem assignScalar_lens (st : HState) (v : HValue) (st' : HState)
    (h : assignScalar st v = .ok st') :
    st'.keys = st.keys ∧ st'.data.length = st.data.length ∧
    st'.selfDone = st.selfDone ∧ st'.flag = st.flag := by
  unfold assignScalar at h
  cases hk : st.keys.getLast? with
  | none => rw [hk] at h; exact absurd h (by simp)
  | some key =>
      rw [hk] at h
      cases hd : st.data.getLast? with
      | none => rw [hd] at h; exact absurd h (by simp)
      | some f =>
          rw [hd] at h
          dsimp only at h
          have hne := ne_nil_of_getLast? st.data f hd
          cases hc : f.cont with
          | hmap es =>
              rw [hc] at h
              injection h with h
              subst h
              simp [putLast_length _ _ hne]
          | harr xs =>
              rw [hc] at h
              injection h with h
              subst h
              simp [putLast_length _ _ hne]
          | hgen => rw [hc] at h; exact absurd h (by simp)

theorem popStep_lens (st : HState) (st' : HState) (v : HValue)
    (h : popStep st = .ok (st', v)) :
    st'.keys.length + 1 = st.keys.length ∧ st'.data.length + 1 = st.data.length ∧
    st'.flag = st.flag := by
  unfold popStep at h
  cases hk : st.keys.getLast? with
  | none => rw [hk] at h; exact absurd h (by simp)
  | some kk =>
      rw [hk] at h
      cases hd : st.data.getLast? with
      | none => rw [hd] at h; exact absurd h (by simp)
      | some f =>
          rw [hd] at h
          dsimp only at h
          have hnek := ne_nil_of_getLast? st.keys kk hk
          have hned := ne_nil_of_getLast? st.data f hd
          have hklen := List.length_pos.mpr hnek
          have hdlen := List.length_pos.mpr hned
          by_cases hl : f.linked
          · rw [if_pos hl] at h
            cases hg : st.data.dropLast.getLast? with
            | none =>
                rw [hg] at h
                dsimp only at h
                injection h with h
                obtain ⟨h1, h2⟩ := Prod.mk.injEq .. ▸ h
                have hdd : st.data.dropLast = [] := by
                  cases hdd : st.data.dropLast with
                  | nil => rfl
                  | cons a t => rw [hdd] at hg; simp [List.getLast?_concat] at hg
                rw [← h1]
                simp [List.length_dropLast, hdd]
                constructor
                · omega
                · have := congrArg List.length hdd
                  simp [List.length_dropLast] at this
                  omega
            | some g =>
                rw [hg] at h
                dsimp only at h
                have hnedd : st.data.dropLast ≠ [] := ne_nil_of_getLast? _ g hg
                cases hgc : g.cont with
                | hmap es =>
                    rw [hgc] at h
                    dsimp only at h
                    injection h with h
                    obtain ⟨h1, h2⟩ := Prod.mk.injEq .. ▸ h
                    rw [← h1]
                    simp [putLast_length _ _ hnedd, List.length_dropLast]
                    omega
                | harr xs =>
                    rw [hgc] at h
                    dsimp only at h
                    injection h with h
                    obtain ⟨h1, h2⟩ := Prod.mk.injEq .. ▸ h
                    rw [← h1]
                    simp [putLast_length _ _ hnedd, List.length_dropLast]
                    omega
                | hgen => rw [hgc] at h; exact absurd h (by simp)
          · rw [if_neg hl] at h
            injection h with h
            obtain ⟨h1, h2⟩ := Prod.mk.injEq .. ▸ h
            rw [← h1]
            simp [List.length_dropLast]
            omega

theorem genInit_lens (st : HState) :
    (genInit st).keys = st.keys ∧ (genInit st).data.length = st.data.length := by
  unfold genInit
  cases hd : st.data.getLast? with
  | none => simp
  | some f =>
      have hne := ne_nil_of_getLast? st.data f hd
      simp [putLast_length _ _ hne]

theorem spStep_lens (pfx : List String) (first : Bool) (st : HState) (e : Event)
    (res : SPRes) (h : spStep pfx first st e = .ok res) :
    ((e = .start_map ∨ e = .start_array) →
        res.state.keys.length = st.keys.length + 1 ∧
        res.state.data.length = st.data.length + 1) ∧
    ((e = .end_map ∨ e = .end_array) →
        res.state.keys.length + 1 = st.keys.length ∧
        res.state.data.length + 1 = st.data.length) ∧
    ((e.isScalar = true ∨ ∃ k, e = .map_key k) →
        res.state.keys.length = st.keys.length ∧
        res.state.data.length = st.data.length) := by
  cases e with
  | start_map =>
      refine ⟨fun _ => ?_,
        fun hc => by rcases hc with hc | hc <;> exact Event.noConfusion hc,
        fun hc => by
          rcases hc with hc | ⟨k, hk⟩
          · simp [Event.isScalar] at hc
          · exact Event.noConfusion hk⟩
      simp only [spStep] at h
      split at h
      · split at h
        · injection h with h
          subst h
          exact pushFrame_lens ..
        · cases ha : assignScalar st .gen with
          | error err => rw [ha] at h; exact absurd h (by simp [Except.map])
          | ok st2 =>
              rw [ha] at h
              simp only [Except.map] at h
              injection h with h
              subst h
              obtain ⟨hk2, hd2, -, -⟩ := assignScalar_lens st .gen st2 ha
              have hpl := pushFrame_lens st2 ⟨.hgen, "", false, false⟩
              simp only [SPRes.state]
              constructor
              · rw [hpl.1, hk2]
              · rw [hpl.2, hd2]
      · split at h
        · injection h with h
          subst h
          exact pushFrame_lens ..
        · split at h
          · exact absurd h (by simp)
          · injection h with h
            subst h
            exact pushFrame_lens ..
  | start_array =>
      refine ⟨fun _ => ?_,
        fun hc => by rcases hc with hc | hc <;> exact Event.noConfusion hc,
        fun hc => by
          rcases hc with hc | ⟨k, hk⟩
          · simp [Event.isScalar] at hc
          · exact Event.noConfusion hk⟩
      simp only [spStep] at h
      split at h
      · split at h
        · injection h with h
          subst h
          exact pushFrame_lens ..
        · cases ha : assignScalar st .gen with
          | error err => rw [ha] at h; exact absurd h (by simp [Except.map])
          | ok st2 =>
              rw [ha] at h
              simp only [Except.map] at h
              injection h with h
              subst h
              obtain ⟨hk2, hd2, -, -⟩ := assignScalar_lens st .gen st2 ha
              have hpl := pushFrame_lens st2 ⟨.hgen, "", false, false⟩
              simp only [SPRes.state]
              constructor
              · rw [hpl.1, hk2]
              · rw [hpl.2, hd2]
      · split at h
        · injection h with h
          subst h
          exact pushFrame_lens ..
        · split at h
          · exact absurd h (by simp)
          · injection h with h
            subst h
            exact pushFrame_lens ..
  | end_map =>
      refine ⟨fun hc => by rcases hc with hc | hc <;> exact Event.noConfusion hc,
        fun _ => ?_,
        fun hc => by
          rcases hc with hc | ⟨k, hk⟩
          · simp [Event.isScalar] at hc
          · exact Event.noConfusion hk⟩
      simp only [spStep] at h
      cases hp : popStep st with
      | error err => rw [hp] at h; exact absurd h (by simp [Except.map])
      | ok r =>
          obtain ⟨st2, v⟩ := r
          rw [hp] at h
          simp only [Except.map] at h
          injection h with h
          subst h
          obtain ⟨h1, h2, -⟩ := popStep_lens st st2 v hp
          exact ⟨h1, h2⟩
  | end_array =>
      refine ⟨fun hc => by rcases hc with hc | hc <;> exact Event.noConfusion hc,
        fun _ => ?_,
        fun hc => by
          rcases hc with hc | ⟨k, hk⟩
          · simp [Event.isScalar] at hc
          · exact Event.noConfusion hk⟩
      simp only [spStep] at h
      cases hp : popStep st with
      | error err => rw [hp] at h; exact absurd h (by simp [Except.map])
      | ok r =>
          obtain ⟨st2, v⟩ := r
          rw [hp] at h
          simp only [Except.map] at h
          injection h with h
          subst h
          obtain ⟨h1, h2, -⟩ := popStep_lens st st2 v hp
          exact ⟨h1, h2⟩
  | map_key k =>
      refine ⟨fun hc => by rcases hc with hc | hc <;> exact Event.noConfusion hc,
        fun hc => by rcases hc with hc | hc <;> exact Event.noConfusion hc,
        fun _ => ?_⟩
      simp only [spStep] at h
      cases hk : st.keys with
      | nil => rw [hk] at h; exact absurd h (by simp)
      | cons a t =>
          rw [hk] at h
          dsimp only at h
          injection h with h
          subst h
          constructor
          · show ((a :: t).dropLast ++ [k]).length = (a :: t).length
            simp [List.length_dropLast]
          · rfl
  | null =>
      refine ⟨fun hc => by rcases hc with hc | hc <;> exact Event.noConfusion hc,
        fun hc => by rcases hc with hc | hc <;> exact Event.noConfusion hc,
        fun _ => ?_⟩
      simp only [spStep] at h
      cases ha : assignScalar st (Event.hValue .null) with
      | error err => rw [ha] at h; exact absurd h (by simp [Except.map])
      | ok st2 =>
          rw [ha] at h
          simp only [Except.map] at h
          injection h with h
          subst h
          obtain ⟨h1, h2, -, -⟩ := assignScalar_lens st _ st2 ha
          simp only [SPRes.state]
          exact ⟨by rw [h1], h2⟩
  | boolean b =>
      refine ⟨fun hc => by rcases hc with hc | hc <;> exact Event.noConfusion hc,
        fun hc => by rcases hc with hc | hc <;> exact Event.noConfusion hc,
        fun _ => ?_⟩
      simp only [spStep] at h
      cases ha : assignScalar st (Event.hValue (.boolean b)) with
      | error err => rw [ha] at h; exact absurd h (by simp [Except.map])
      | ok st2 =>
          rw [ha] at h
          simp only [Except.map] at h
          injection h with h
          subst h
          obtain ⟨h1, h2, -, -⟩ := assignScalar_lens st _ st2 ha
          simp only [SPRes.state]
          exact ⟨by rw [h1], h2⟩
  | number n =>
      refine ⟨fun hc => by rcases hc with hc | hc <;> exact Event.noConfusion hc,
        fun hc => by rcases hc with hc | hc <;> exact Event.noConfusion hc,
        fun _ => ?_⟩
      simp only [spStep] at h
      cases ha : assignScalar st (Event.hValue (.number n)) with
      | error err => rw [ha] at h; exact absurd h (by simp [Except.map])
      | ok st2 =>
          rw [ha] at h
          simp only [Except.map] at h
          injection h with h
          subst h
          obtain ⟨h1, h2, -, -⟩ := assignScalar_lens st _ st2 ha
          simp only [SPRes.state]
          exact ⟨by rw [h1], h2⟩
  | string sv =>
      refine ⟨fun hc => by rcases hc with hc | hc <;> exact Event.noConfusion hc,
        fun hc => by rcases hc with hc | hc <;> exact Event.noConfusion hc,
        fun _ => ?_⟩
      simp only [spStep] at h
      cases ha : assignScalar st (Event.hValue (.string sv)) with
      | error err => rw [ha] at h; exact absurd h (by simp [Except.map])
      | ok st2 =>
          rw [ha] at h
          simp only [Except.map] at h
          injection h with h
          subst h
          obtain ⟨h1, h2, -, -⟩ := assignScalar_lens st _ st2 ha
          simp only [SPRes.state]
          exact ⟨by rw [h1], h2⟩

theorem jgStepCore_lens (st : HState) (e : Event) (st' : HState) (v : HValue)
    (fl : Bool) (h : jgStepCore st e = .ok (st', v, fl)) :
    ((e = .start_map ∨ e = .start_array) →
        st'.keys.length = st.keys.length + 1 ∧
        st'.data.length = st.data.length + 1) ∧
    ((e = .end_map ∨ e = .end_array) →
        st'.keys.length + 1 = st.keys.length ∧
        st'.data.length + 1 = st.data.length) ∧
    ((e.isScalar = true ∨ ∃ k, e = .map_key k) →
        st'.keys.length = st.keys.length ∧
        st'.data.length = st.data.length) := by
  cases e with
  | start_map =>
      refine ⟨fun _ => ?_,
        fun hc => by rcases hc with hc | hc <;> exact Event.noConfusion hc,
        fun hc => by
          rcases hc with hc | ⟨k, hk⟩
          · simp [Event.isScalar] at hc
          · exact Event.noConfusion hk⟩
      simp only [jgStepCore] at h
      split at h
      · injection h with h
        obtain ⟨h1, -⟩ := Prod.mk.injEq .. ▸ h
        rw [← h1]
        exact pushFrame_lens ..
      · split at h
        · exact absurd h (by simp)
        · injection h with h
          obtain ⟨h1, -⟩ := Prod.mk.injEq .. ▸ h
          rw [← h1]
          exact pushFrame_lens ..
  | start_array =>
      refine ⟨fun _ => ?_,
        fun hc => by rcases hc with hc | hc <;> exact Event.noConfusion hc,
        fun hc => by
          rcases hc with hc | ⟨k, hk⟩
          · simp [Event.isScalar] at hc
          · exact Event.noConfusion hk⟩
      simp only [jgStepCore] at h
      split at h
      · injection h with h
        obtain ⟨h1, -⟩ := Prod.mk.injEq .. ▸ h
        rw [← h1]
        exact pushFrame_lens ..
      · split at h
        · exact absurd h (by simp)
        · injection h with h
          obtain ⟨h1, -⟩ := Prod.mk.injEq .. ▸ h
          rw [← h1]
          exact pushFrame_lens ..
  | end_map =>
      refine ⟨fun hc => by rcases hc with hc | hc <;> exact Event.noConfusion hc,
        fun _ => ?_,
        fun hc => by
          rcases hc with hc | ⟨k, hk⟩
          · simp [Event.isScalar] at hc
          · exact Event.noConfusion hk⟩
      simp only [jgStepCore] at h
      cases hp : popStep st with
      | error err => rw [hp] at h; exact absurd h (by simp [Except.map])
      | ok r =>
          obtain ⟨st2, w⟩ := r
          rw [hp] at h
          simp only [Except.map] at h
          injection h with h
          obtain ⟨h1, -⟩ := Prod.mk.injEq .. ▸ h
          rw [← h1]
          obtain ⟨ha, hb, -⟩ := popStep_lens st st2 w hp
          exact ⟨ha, hb⟩
  | end_array =>
      refine ⟨fun hc => by rcases hc with hc | hc <;> exact Event.noConfusion hc,
        fun _ => ?_,
        fun hc => by
          rcases hc with hc | ⟨k, hk⟩
          · simp [Event.isScalar] at hc
          · exact Event.noConfusion hk⟩
      simp only [jgStepCore] at h
      cases hp : popStep st with
      | error err => rw [hp] at h; exact absurd h (by simp [Except.map])
      | ok r =>
          obtain ⟨st2, w⟩ := r
          rw [hp] at h
          simp only [Except.map] at h
          injection h with h
          obtain ⟨h1, -⟩ := Prod.mk.injEq .. ▸ h
          rw [← h1]
          obtain ⟨ha, hb, -⟩ := popStep_lens st st2 w hp
          exact ⟨ha, hb⟩
  | map_key k =>
      refine ⟨fun hc => by rcases hc with hc | hc <;> exact Event.noConfusion hc,
        fun hc => by rcases hc with hc | hc <;> exact Event.noConfusion hc,
        fun _ => ?_⟩
      simp only [jgStepCore] at h
      cases hk : st.keys with
      | nil => rw [hk] at h; exact absurd h (by simp)
      | cons a t =>
          rw [hk] at h
          dsimp only at h
          injection h with h
          obtain ⟨h1, -⟩ := Prod.mk.injEq .. ▸ h
          rw [← h1]
          constructor
          · show ((a :: t).dropLast ++ [k]).length = (a :: t).length
            simp [List.length_dropLast]
          · rfl
  | null =>
      refine ⟨fun hc => by rcases hc with hc | hc <;> exact Event.noConfusion hc,
        fun hc => by rcases hc with hc | hc <;> exact Event.noConfusion hc,
        fun _ => ?_⟩
      simp only [jgStepCore] at h
      cases ha : assignScalar st (Event.hValue .null) with
      | error err => rw [ha] at h; exact absurd h (by simp [Except.map])
      | ok st2 =>
          rw [ha] at h
          simp only [Except.map] at h
          injection h with h
          obtain ⟨h1, -⟩ := Prod.mk.injEq .. ▸ h
          rw [← h1]
          obtain ⟨ha1, ha2, -, -⟩ := assignScalar_lens st _ st2 ha
          exact ⟨by rw [ha1], ha2⟩
  | boolean b =>
      refine ⟨fun hc => by rcases hc with hc | hc <;> exact Event.noConfusion hc,
        fun hc => by rcases hc with hc | hc <;> exact Event.noConfusion hc,
        fun _ => ?_⟩
      simp only [jgStepCore] at h
      cases ha : assignScalar st (Event.hValue (.boolean b)) with
      | error err => rw [ha] at h; exact absurd h (by simp [Except.map])
      | ok st2 =>
          rw [ha] at h
          simp only [Except.map] at h
          injection h with h
          obtain ⟨h1, -⟩ := Prod.mk.injEq .. ▸ h
          rw [← h1]
          obtain ⟨ha1, ha2, -, -⟩ := assignScalar_lens st _ st2 ha
          exact ⟨by rw [ha1], ha2⟩
  | number n =>
      refine ⟨fun hc => by rcases hc with hc | hc <;> exact Event.noConfusion hc,
        fun hc => by rcases hc with hc | hc <;> exact Event.noConfusion hc,
        fun _ => ?_⟩
      simp only [jgStepCore] at h
      cases ha : assignScalar st (Event.hValue (.number n)) with
      | error err => rw [ha] at h; exact absurd h (by simp [Except.map])
      | ok st2 =>
          rw [ha] at h
          simp only [Except.map] at h
          injection h with h
          obtain ⟨h1, -⟩ := Prod.mk.injEq .. ▸ h
          rw [← h1]
          obtain ⟨ha1, ha2, -, -⟩ := assignScalar_lens st _ st2 ha
          exact ⟨by rw [ha1], ha2⟩
  | string sv =>
      refine ⟨fun hc => by rcases hc with hc | hc <;> exact Event.noConfusion hc,
        fun hc => by rcases hc with hc | hc <;> exact Event.noConfusion hc,
        fun _ => ?_⟩
      simp only [jgStepCore] at h
      cases ha : assignScalar st (Event.hValue (.string sv)) with
      | error err => rw [ha] at h; exact absurd h (by simp [Except.map])
      | ok st2 =>
          rw [ha] at h
          simp only [Except.map] at h
          injection h with h
          obtain ⟨h1, -⟩ := Prod.mk.injEq .. ▸ h
          rw [← h1]
          obtain ⟨ha1, ha2, -, -⟩ := assignScalar_lens st _ st2 ha
          exact ⟨by rw [ha1], ha2⟩

/-- The yield test at the end of the loop body only touches the flag, so a
full Phase-2 step moves the stacks exactly as the event-processing part. -/
theorem jgStep_lens (pfx : List String) (st : HState) (e : Event)
    (st' : HState) (em : Option HValue)
    (h : jgStep pfx st e = .ok (st', em)) :
    ∃ st0 v fl, jgStepCore st e = .ok (st0, v, fl) ∧
      st'.keys = st0.keys ∧ st'.data = st0.data ∧ st'.selfDone = st0.selfDone := by
  unfold jgStep at h
  cases hc : jgStepCore st e with
  | error err => rw [hc] at h; exact absurd h (by simp [Except.map])
  | ok r =>
      obtain ⟨st0, v, fl⟩ := r
      rw [hc] at h
      simp only [Except.map] at h
      injection h with h
      refine ⟨st0, v, fl, rfl, ?_⟩
      by_cases hy : fl ∧ st0.keys = pfx
      · rw [if_pos hy] at h
        obtain ⟨h1, -⟩ := Prod.mk.injEq .. ▸ h
        rw [← h1]
        exact ⟨rfl, rfl, rfl⟩
      · rw [if_neg hy] at h
        obtain ⟨h1, -⟩ := Prod.mk.injEq .. ▸ h
        rw [← h1]
        exact ⟨rfl, rfl, rfl⟩

theorem spStep_balanced (pfx : List String) (first : Bool) (st : HState)
    (e : Event) (res : SPRes) (h : spStep pfx first st e = .ok res)
    (hb : st.keys.length = st.data.length) :
    res.state.keys.length = res.state.data.length := by
  have hl := spStep_lens pfx first st e res h
  cases e with
  | start_map => have := hl.1 (Or.inl rfl); omega
  | start_array => have := hl.1 (Or.inr rfl); omega
  | end_map => have := hl.2.1 (Or.inl rfl); omega
  | end_array => have := hl.2.1 (Or.inr rfl); omega
  | map_key k => have := hl.2.2 (Or.inr ⟨k, rfl⟩); omega
  | null => have := hl.2.2 (Or.inl rfl); omega
  | boolean b => have := hl.2.2 (Or.inl rfl); omega
  | number n => have := hl.2.2 (Or.inl rfl); omega
  | string sv => have := hl.2.2 (Or.inl rfl); omega

theorem jgStep_balanced (pfx : List String) (st : HState) (e : Event)
    (st' : HState) (em : Option HValue) (h : jgStep pfx st e = .ok (st', em))
    (hb : st.keys.length = st.data.length) :
    st'.keys.length = st'.data.length := by
  obtain ⟨st0, v, fl, hc, hk, hd, -⟩ := jgStep_lens pfx st e st' em h
  have hl := jgStepCore_lens st e st0 v fl hc
  rw [hk, hd]
  cases e with
  | start_map => have := hl.1 (Or.inl rfl); omega
  | start_array => have := hl.1 (Or.inr rfl); omega
  | end_map => have := hl.2.1 (Or.inl rfl); omega
  | end_array => have := hl.2.1 (Or.inr rfl); omega
  | map_key k => have := hl.2.2 (Or.inr ⟨k, rfl⟩); omega
  | null => have := hl.2.2 (Or.inl rfl); omega
  | boolean b => have := hl.2.2 (Or.inl rfl); omega
  | number n => have := hl.2.2 (Or.inl rfl); omega
  | string sv => have := hl.2.2 (Or.inl rfl); omega

theorem spTrace_balanced (pfx : List String) (es : List Event) :
    ∀ (first : Bool) (st : HState), st.keys.length = st.data.length →
      ∀ st' ∈ spTrace pfx first st es, st'.keys.length = st'.data.length := by
  induction es with
  | nil => intro first st _ st' hst'; simp [spTrace] at hst'
  | cons e rest ih =>
      intro first st h st' hst'
      rw [show spTrace pfx first st (e :: rest) =
        (match spStep pfx first st e with
         | .error _ => []
         | .ok (.cont f' st2) => st2 :: spTrace pfx f' st2 rest
         | .ok (.broke st2) => [st2]) from rfl] at hst'
      cases hs : spStep pfx first st e with
      | error err => rw [hs] at hst'; simp at hst'
      | ok res =>
          rw [hs] at hst'
          have hbal := spStep_balanced pfx first st e res hs h
          cases res with
          | cont f' st2 =>
              rcases List.mem_cons.mp hst' with h1 | h2
              · rw [h1]; exact hbal
              · exact ih f' st2 hbal st' h2
          | broke st2 =>
              simp at hst'
              rw [hst']
              exact hbal

theorem jgRunLog_balanced (pfx : List String) (es : List Event) :
    ∀ (st : HState), st.keys.length = st.data.length →
      ∀ entry ∈ jgRunLog pfx st es,
        entry.pre.keys.length = entry.pre.data.length ∧
        entry.post.keys.length = entry.post.data.length := by
  induction es with
  | nil => intro st _ entry hentry; simp [jgRunLog] at hentry
  | cons e rest ih =>
      intro st h entry hentry
      rw [show jgRunLog pfx st (e :: rest) =
        (match jgStep pfx st e with
         | .error _ => []
         | .ok (st', em) => ⟨st, e, st', em⟩ :: jgRunLog pfx st' rest) from rfl]
        at hentry
      cases hs : jgStep pfx st e with
      | error err => rw [hs] at hentry; simp at hentry
      | ok r =>
          obtain ⟨st', em⟩ := r
          rw [hs] at hentry
          have hbal := jgStep_balanced pfx st e st' em hs h
          rcases List.mem_cons.mp hentry with h1 | h2
          · rw [h1]; exact ⟨h, hbal⟩
          · exact ih st' hbal entry h2

/-! ## Phase-2 yield discipline -/

theorem jgExec_cons_ok (pfx : List String) (st : HState) (e : Event)
    (es : List Event) (st2 : HState) (em : Option HValue)
    (h : jgStep pfx st e = .ok (st2, em)) :
    jgExec pfx st (e :: es) = jgExec pfx st2 es := by
  rw [show jgExec pfx st (e :: es) =
    (match jgStep pfx st e with
     | .error _ => st
     | .ok (st', _) => jgExec pfx st' es) from rfl, h]

theorem jgYields_cons_ok (pfx : List String) (st : HState) (e : Event)
    (es : List Event) (st2 : HState) (em : Option HValue)
    (h : jgStep pfx st e = .ok (st2, em)) :
    jgYields pfx st (e :: es) =
      (match em with | some v => [v] | none => []) ++ jgYields pfx st2 es := by
  have hlog : jgRunLog pfx st (e :: es) = ⟨st, e, st2, em⟩ :: jgRunLog pfx st2 es := by
    rw [show jgRunLog pfx st (e :: es) =
      (match jgStep pfx st e with
       | .error _ => []
       | .ok (st', em') => (⟨st, e, st', em'⟩ : JGEntry) :: jgRunLog pfx st' es)
      from rfl, h]
  rw [jgYields, hlog, List.filterMap_cons]
  cases em <;> simp [jgYields]

/-- A Phase-2 step yields only when the keys stack after the event equals
the full target prefix. -/
theorem jgStep_emit_keys (pfx : List String) (st : HState) (e : Event)
    (st' : HState) (v : HValue) (h : jgStep pfx st e = .ok (st', some v)) :
    st'.keys = pfx := by
  unfold jgStep at h
  cases hc : jgStepCore st e with
  | error err => rw [hc] at h; exact absurd h (by simp [Except.map])
  | ok r =>
      obtain ⟨st0, w, fl⟩ := r
      rw [hc] at h
      simp only [Except.map] at h
      injection h with h
      by_cases hy : fl ∧ st0.keys = pfx
      · rw [if_pos hy] at h
        obtain ⟨h1, -⟩ := Prod.mk.injEq .. ▸ h
        rw [← h1]
        exact hy.2
      · rw [if_neg hy] at h
        obtain ⟨-, h2⟩ := Prod.mk.injEq .. ▸ h
        exact absurd h2 (by simp)

/-- Flag bookkeeping of one Phase-2 step: a yield clears the flag, and for
an event that does not complete a value (not a scalar, not an `End`) the
flag is only carried over — so such an event can yield only a stale flag
left by an earlier completion. -/
theorem jgStep_flag (pfx : List String) (st : HState) (e : Event)
    (st' : HState) (em : Option HValue)
    (h : jgStep pfx st e = .ok (st', em)) :
    (em.isSome = true → st'.flag = false) ∧
    ((e.isScalar || e.isEnd) = false →
       (em.isSome = true → st.flag = true) ∧ (em = none → st'.flag = st.flag)) := by
  unfold jgStep at h
  cases hc : jgStepCore st e with
  | error err => rw [hc] at h; exact absurd h (by simp [Except.map])
  | ok r =>
      obtain ⟨st0, w, fl⟩ := r
      rw [hc] at h
      simp only [Except.map] at h
      injection h with h
      have hfl : (e.isScalar || e.isEnd) = false → fl = st.flag := by
        intro hcomp
        cases e with
        | start_map =>
            simp only [jgStepCore] at hc
            split at hc
            · injection hc with hc
              obtain ⟨-, h2⟩ := Prod.mk.injEq .. ▸ hc
              obtain ⟨-, h3⟩ := Prod.mk.injEq .. ▸ h2
              exact h3.symm
            · split at hc
              · exact absurd hc (by simp)
              · injection hc with hc
                obtain ⟨-, h2⟩ := Prod.mk.injEq .. ▸ hc
                obtain ⟨-, h3⟩ := Prod.mk.injEq .. ▸ h2
                exact h3.symm
        | start_array =>
            simp only [jgStepCore] at hc
            split at hc
            · injection hc with hc
              obtain ⟨-, h2⟩ := Prod.mk.injEq .. ▸ hc
              obtain ⟨-, h3⟩ := Prod.mk.injEq .. ▸ h2
              exact h3.symm
            · split at hc
              · exact absurd hc (by simp)
              · injection hc with hc
                obtain ⟨-, h2⟩ := Prod.mk.injEq .. ▸ hc
                obtain ⟨-, h3⟩ := Prod.mk.injEq .. ▸ h2
                exact h3.symm
        | map_key k =>
            simp only [jgStepCore] at hc
            cases hk : st.keys with
            | nil => rw [hk] at hc; exact absurd hc (by simp)
            | cons a t =>
                rw [hk] at hc
                dsimp only at hc
                injection hc with hc
                obtain ⟨-, h2⟩ := Prod.mk.injEq .. ▸ hc
                obtain ⟨-, h3⟩ := Prod.mk.injEq .. ▸ h2
                exact h3.symm
        | end_map => simp [Event.isScalar, Event.isEnd] at hcomp
        | end_array => simp [Event.isScalar, Event.isEnd] at hcomp
        | null => simp [Event.isScalar, Event.isEnd] at hcomp
        | boolean b => simp [Event.isScalar, Event.isEnd] at hcomp
        | number n => simp [Event.isScalar, Event.isEnd] at hcomp
        | string sv => simp [Event.isScalar, Event.isEnd] at hcomp
      by_cases hy : fl ∧ st0.keys = pfx
      · rw [if_pos hy] at h
        obtain ⟨h1, h2⟩ := Prod.mk.injEq .. ▸ h
        constructor
        · intro _; rw [← h1]
        · intro hcomp
          refine ⟨fun _ => ?_, fun hnone => ?_⟩
          · rw [← hfl hcomp]; exact hy.1
          · rw [← h2] at hnone; exact absurd hnone (by simp)
      · rw [if_neg hy] at h
        obtain ⟨h1, h2⟩ := Prod.mk.injEq .. ▸ h
        constructor
        · intro hsome; rw [← h2] at hsome; simp at hsome
        · intro hcomp
          exact ⟨fun hsome => by rw [← h2] at hsome; simp at hsome,
            fun _ => by rw [← h1, hfl hcomp]⟩

/-- Every yield of a Phase-2 run happens at an event after which the keys
stack equals the target prefix. -/
theorem jgRunLog_emits_at (pfx : List String) (es : List Event) :
    ∀ (st : HState), ∀ entry ∈ jgRunLog pfx st es, ∀ v,
      entry.emitted = some v → entry.post.keys = pfx := by
  induction es with
  | nil => intro st entry hentry; simp [jgRunLog] at hentry
  | cons e rest ih =>
      intro st entry hentry v hv
      rw [show jgRunLog pfx st (e :: rest) =
        (match jgStep pfx st e with
         | .error _ => []
         | .ok (st', em) => ⟨st, e, st', em⟩ :: jgRunLog pfx st' rest) from rfl]
        at hentry
      cases hs : jgStep pfx st e with
      | error err => rw [hs] at hentry; simp at hentry
      | ok r =>
          obtain ⟨st', em⟩ := r
          rw [hs] at hentry
          rcases List.mem_cons.mp hentry with h1 | h2
          · rw [h1] at hv ⊢
            have hem : em = some v := hv
            rw [hem] at hs
            exact jgStep_emit_keys pfx st e st' v hs
          · exact ih st' entry h2 v hv

/-- A Phase-2 run yields at most one value per completing event (scalar or
`End`), plus at most one stale yield enabled by an initially set flag. -/
theorem jgYields_bound (pfx : List String) (es : List Event) :
    ∀ (st : HState),
      (jgYields pfx st es).length ≤
        (es.filter (fun e => e.isScalar || e.isEnd)).length +
          (if st.flag then 1 else 0) := by
  induction es with
  | nil => intro st; simp [jgYields, jgRunLog]
  | cons e rest ih =>
      intro st
      cases hs : jgStep pfx st e with
      | error err =>
          rw [show jgYields pfx st (e :: rest) = [] from by
            simp [jgYields, jgRunLog, hs]]
          simp
      | ok r =>
          obtain ⟨st', em⟩ := r
          rw [jgYields_cons_ok pfx st e rest st' em hs]
          have hflag := jgStep_flag pfx st e st' em hs
          have hih := ih st'
          by_cases hcomp : (e.isScalar || e.isEnd) = true
          · have hfeq : List.filter (fun e => e.isScalar || e.isEnd) (e :: rest) =
                e :: List.filter (fun e => e.isScalar || e.isEnd) rest := by
              simp [List.filter_cons, hcomp]
            rw [hfeq]
            cases em with
            | some v =>
                have h1 : st'.flag = false := hflag.1 (by simp)
                rw [h1] at hih
                simp only [List.length_cons, List.length_append, List.length_cons]
                simp at hih ⊢
                omega
            | none =>
                have : (if st'.flag then 1 else 0) ≤ 1 := by split <;> omega
                simp at hih ⊢
                omega
          · have hcompf : (e.isScalar || e.isEnd) = false := by
              simpa using hcomp
            rw [List.filter_cons_of_neg (by simp [hcompf])]
            cases em with
            | some v =>
                have h1 : st'.flag = false := hflag.1 (by simp)
                have h2 : st.flag = true := (hflag.2 hcompf).1 (by simp)
                rw [h1] at hih
                rw [h2]
                simp at hih ⊢
                omega
            | none =>
                have h2 : st'.flag = st.flag := (hflag.2 hcompf).2 rfl
                rw [h2] at hih
                simp at hih ⊢
                omega

/-! ## Phase-2 computation helpers -/

theorem decomp_getLast? {α : Type} (l : List α) (a : α)
    (h : l.getLast? = some a) : l = l.dropLast ++ [a] := by
  have hne : l ≠ [] := ne_nil_of_getLast? l a h
  have := List.dropLast_append_getLast hne
  rw [List.getLast?_eq_getLast l hne] at h
  injection h with h
  rw [h] at this
  exact this.symm

theorem append_ne_left (K ext : List String) (h : ext ≠ []) : K ++ ext ≠ K := by
  intro hcon
  have := congrArg List.length hcon
  simp at this
  exact h this

theorem upsertH_of_not_mem (acc : List (String × HValue)) (k : String) (v : HValue)
    (h : k ∉ acc.map Prod.fst) : upsertH acc k v = acc ++ [(k, v)] := by
  induction acc with
  | nil => rfl
  | cons p rest ih =>
      obtain ⟨k', v'⟩ := p
      have hne : ¬(k' = k) := by
        intro hcon; exact h (by simp [hcon])
      rw [show upsertH ((k', v') :: rest) k v =
        (if k' = k then (k, v) :: rest else (k', v') :: upsertH rest k v) from rfl,
        if_neg hne, ih (by intro hm; exact h (by simp [hm]))]
      rfl

theorem foldUpsertH_of_nodup (acc es : List (String × HValue))
    (h : (acc.map Prod.fst ++ es.map Prod.fst).Nodup) :
    foldUpsertH acc es = acc ++ es := by
  induction es generalizing acc with
  | nil => simp [foldUpsertH]
  | cons p rest ih =>
      obtain ⟨k, v⟩ := p
      have hnotmem : k ∉ acc.map Prod.fst := by
        rw [List.nodup_append] at h
        intro hm
        exact h.2.2 hm (by simp)
      rw [show foldUpsertH acc ((k, v) :: rest) = foldUpsertH (upsertH acc k v) rest
        from rfl, upsertH_of_not_mem acc k v hnotmem,
        ih (acc ++ [(k, v)]) (by simpa using h)]
      simp

theorem toHE_fst (es : List (String × JValue)) :
    (toHE es).map Prod.fst = es.map Prod.fst := by
  induction es with
  | nil => rfl
  | cons p rest ih =>
      obtain ⟨k, v⟩ := p
      simp [toHE, ih]

theorem assignScalar_hmap (st : HState) (key : String) (data0 : List HFrame)
    (fr : HFrame) (acc : List (String × HValue)) (v : HValue)
    (hk : st.keys.getLast? = some key) (hd : st.data = data0 ++ [fr])
    (hfr : fr.cont = .hmap acc) :
    assignScalar st v =
      .ok { st with data := data0 ++ [{ fr with cont := .hmap (upsertH acc key v) }] } := by
  unfold assignScalar
  rw [hk, hd]
  dsimp only
  rw [List.getLast?_concat]
  dsimp only
  rw [hfr]
  dsimp only
  rw [show putLast (data0 ++ [fr]) { fr with cont := .hmap (upsertH acc key v) } =
    data0 ++ [{ fr with cont := .hmap (upsertH acc key v) }] from by
      simp [putLast]]

theorem assignScalar_harr (st : HState) (data0 : List HFrame)
    (fr : HFrame) (acc : List HValue) (v : HValue)
    (hk : st.keys ≠ []) (hd : st.data = data0 ++ [fr])
    (hfr : fr.cont = .harr acc) :
    assignScalar st v =
      .ok { st with data := data0 ++ [{ fr with cont := .harr (acc ++ [v]) }] } := by
  unfold assignScalar
  cases hgl : st.keys.getLast? with
  | none =>
      exfalso
      cases hke : st.keys with
      | nil => exact hk hke
      | cons a t => rw [hke] at hgl; simp [List.getLast?_concat] at hgl
  | some key =>
      rw [hd]
      dsimp only
      rw [List.getLast?_concat]
      dsimp only
      rw [hfr]
      dsimp only
      rw [show putLast (data0 ++ [fr]) { fr with cont := .harr (acc ++ [v]) } =
        data0 ++ [{ fr with cont := .harr (acc ++ [v]) }] from by
          simp [putLast]]

theorem assignScalar_inv (st : HState) (v : HValue) (st' : HState)
    (h : assignScalar st v = .ok st') :
    ∃ key f0, st.keys.getLast? = some key ∧ st.data.getLast? = some f0 ∧
      ((∃ es0, f0.cont = .hmap es0 ∧
          st' = { st with data := st.data.dropLast ++
            [{ f0 with cont := .hmap (upsertH es0 key v) }] }) ∨
       (∃ xs0, f0.cont = .harr xs0 ∧
          st' = { st with data := st.data.dropLast ++
            [{ f0 with cont := .harr (xs0 ++ [v]) }] })) := by
  unfold assignScalar at h
  cases hk : st.keys.getLast? with
  | none => rw [hk] at h; exact absurd h (by simp)
  | some key =>
      rw [hk] at h
      cases hd : st.data.getLast? with
      | none => rw [hd] at h; exact absurd h (by simp)
      | some f =>
          rw [hd] at h
          dsimp only at h
          cases hc : f.cont with
          | hmap es =>
              rw [hc] at h
              injection h with h
              exact ⟨key, f, rfl, rfl, Or.inl ⟨es, hc, by rw [← h]; rfl⟩⟩
          | harr xs =>
              rw [hc] at h
              injection h with h
              exact ⟨key, f, rfl, rfl, Or.inr ⟨xs, hc, by rw [← h]; rfl⟩⟩
          | hgen => rw [hc] at h; exact absurd h (by simp)

theorem jgStepCore_map_key (st : HState) (k : String) (hne : st.keys ≠ []) :
    jgStepCore st (.map_key k) =
      .ok ({ st with keys := st.keys.dropLast ++ [k] }, .str k, st.flag) := by
  simp only [jgStepCore]

theorem jgStepCore_start_map (st : HState) (hk : ¬st.keys.isEmpty = true)
    (f0 : HFrame) (hd : st.data.getLast? = some f0) :
    jgStepCore st .start_map =
      .ok (pushFrame st ⟨.hmap [], st.keys.getLast?.getD "", !st.keys.isEmpty, false⟩,
        .null, st.flag) := by
  simp only [jgStepCore, classmapF]
  rw [if_neg hk, hd]

theorem jgStepCore_start_array (st : HState) (hk : ¬st.keys.isEmpty = true)
    (f0 : HFrame) (hd : st.data.getLast? = some f0) :
    jgStepCore st .start_array =
      .ok (pushFrame st ⟨.harr [], st.keys.getLast?.getD "", !st.keys.isEmpty, false⟩,
        .null, st.flag) := by
  simp only [jgStepCore, classmapF]
  rw [if_neg hk, hd]

theorem jgStep_of_core (pfx : List String) (st : HState) (e : Event)
    (st0 : HState) (v : HValue) (fl : Bool)
    (hc : jgStepCore st e = .ok (st0, v, fl)) :
    jgStep pfx st e =
      .ok (if fl ∧ st0.keys = pfx then ({ st0 with flag := false }, some v)
           else ({ st0 with flag := fl }, none)) := by
  unfold jgStep
  rw [hc]
  rfl

theorem popStep_child (K : List String) (x : String) (data0 : List HFrame)
    (g fr : HFrame) (sd : Option HCont) (fl : Bool)
    (hlink : fr.linked = true) (hself : fr.isSelf = false) :
    popStep ⟨K ++ [x], (data0 ++ [g]) ++ [fr], sd, fl⟩ =
      (match g.cont with
       | .hmap es => .ok (⟨K, data0 ++
           [{ g with cont := .hmap (upsertH es fr.savedKey fr.cont.close) }], sd, fl⟩,
           fr.cont.close)
       | .harr xs => .ok (⟨K, data0 ++
           [{ g with cont := .harr (xs ++ [fr.cont.close]) }], sd, fl⟩, fr.cont.close)
       | .hgen => .error .attrError) := by
  unfold popStep
  rw [show (⟨K ++ [x], (data0 ++ [g]) ++ [fr], sd, fl⟩ : HState).keys.getLast? =
    some x from List.getLast?_concat ..]
  dsimp only
  rw [show (⟨K ++ [x], (data0 ++ [g]) ++ [fr], sd, fl⟩ : HState).data.getLast? =
    some fr from List.getLast?_concat ..]
  dsimp only
  rw [hlink, hself, if_pos (rfl : (true : Bool) = true),
    if_neg (show ¬((false : Bool) = true) by simp),
    show (K ++ [x]).dropLast = K from List.dropLast_concat ..,
    show ((data0 ++ [g]) ++ [fr]).dropLast = data0 ++ [g] from List.dropLast_concat ..,
    show (data0 ++ [g]).getLast? = some g from List.getLast?_concat ..]
  dsimp only
  cases hgc : g.cont with
  | hmap es =>
      dsimp only
      rw [show putLast (data0 ++ [g])
        { g with cont := .hmap (upsertH es fr.savedKey fr.cont.close) } =
        data0 ++ [{ g with cont := .hmap (upsertH es fr.savedKey fr.cont.close) }]
        from by simp [putLast]]
  | harr xs =>
      dsimp only
      rw [show putLast (data0 ++ [g])
        { g with cont := .harr (xs ++ [fr.cont.close]) } =
        data0 ++ [{ g with cont := .harr (xs ++ [fr.cont.close]) }]
        from by simp [putLast]]
  | hgen => rfl

theorem popStep_unlinked (K : List String) (x : String) (data0 : List HFrame)
    (fr : HFrame) (sd : Option HCont) (fl : Bool) (hlink : fr.linked = false) :
    popStep ⟨K ++ [x], data0 ++ [fr], sd, fl⟩ =
      .ok (⟨K, data0, if fr.isSelf then some fr.cont else sd, fl⟩, fr.cont.close) := by
  unfold popStep
  rw [show (⟨K ++ [x], data0 ++ [fr], sd, fl⟩ : HState).keys.getLast? =
    some x from List.getLast?_concat ..]
  dsimp only
  rw [show (⟨K ++ [x], data0 ++ [fr], sd, fl⟩ : HState).data.getLast? =
    some fr from List.getLast?_concat ..]
  dsimp only
  rw [hlink, if_neg (show ¬((false : Bool) = true) by simp),
    show (K ++ [x]).dropLast = K from List.dropLast_concat ..,
    show (data0 ++ [fr]).dropLast = data0 from List.dropLast_concat ..]

theorem hframe_cont_eta (fr : HFrame) (c : HCont) (h : fr.cont = c) :
    ({ fr with cont := c } : HFrame) = fr := by
  cases fr
  simp only at h
  rw [h]

theorem isEmpty_false_of_ne_nil (l : List String) (h : l ≠ []) :
    l.isEmpty = false := by
  cases l with
  | nil => exact absurd rfl h
  | cons a t => rfl

theorem jgStepCore_scalar (st : HState) (e : Event) (hse : e.isScalar = true) :
    jgStepCore st e =
      (assignScalar st e.hValue).map (fun st2 => (st2, e.hValue, true)) := by
  cases e <;> first
    | rfl
    | simp [Event.isScalar] at hse

theorem jgStep_core_pos (pfx : List String) (st : HState) (e : Event)
    (st0 : HState) (v : HValue)
    (hc : jgStepCore st e = .ok (st0, v, true)) (hkp : st0.keys = pfx) :
    jgStep pfx st e = .ok ({ st0 with flag := false }, some v) := by
  rw [jgStep_of_core pfx st e st0 v true hc,
    if_pos (show (true = true) ∧ st0.keys = pfx from ⟨rfl, hkp⟩)]

theorem jgStep_core_neg (pfx : List String) (st : HState) (e : Event)
    (st0 : HState) (v : HValue) (fl : Bool)
    (hc : jgStepCore st e = .ok (st0, v, fl)) (hkp : ¬(st0.keys = pfx)) :
    jgStep pfx st e = .ok ({ st0 with flag := fl }, none) := by
  rw [jgStep_of_core pfx st e st0 v fl hc,
    if_neg (show ¬((fl = true) ∧ st0.keys = pfx) from fun hcon => hkp hcon.2)]

theorem jgStepCore_end_map (st : HState) :
    jgStepCore st .end_map = (popStep st).map (fun r => (r.1, r.2, true)) := rfl

theorem jgStepCore_end_array (st : HState) :
    jgStepCore st .end_array = (popStep st).map (fun r => (r.1, r.2, true)) := rfl

theorem jgYields_cons_some (pfx : List String) (st : HState) (e : Event)
    (es : List Event) (st2 : HState) (v : HValue)
    (h : jgStep pfx st e = .ok (st2, some v)) :
    jgYields pfx st (e :: es) = v :: jgYields pfx st2 es :=
  jgYields_cons_ok pfx st e es st2 (some v) h

theorem jgYields_cons_none (pfx : List String) (st : HState) (e : Event)
    (es : List Event) (st2 : HState)
    (h : jgStep pfx st e = .ok (st2, none)) :
    jgYields pfx st (e :: es) = jgYields pfx st2 es :=
  jgYields_cons_ok pfx st e es st2 none h

/-- A single scalar event processed by the Phase-2 loop: assign the value
into the top container, set the yield flag, and yield exactly when the
keys stack is the target prefix. -/
theorem jg_scalar_step (pfx : List String) (st st' : HState) (e : Event)
    (W : JValue) (hse : e.isScalar = true) (hev : Event.hValue e = JValue.toH W)
    (ha : assignScalar st (JValue.toH W) = .ok st') (rest : List Event) :
    jgExec pfx st (e :: rest) =
      jgExec pfx { st' with flag := !(decide (st.keys = pfx)) } rest ∧
    jgYields pfx st (e :: rest) =
      (if st.keys = pfx then [JValue.toH W] else []) ++
        jgYields pfx { st' with flag := !(decide (st.keys = pfx)) } rest := by
  have ha' : assignScalar st e.hValue = .ok st' := by rw [hev]; exact ha
  have hcore : jgStepCore st e = .ok (st', JValue.toH W, true) := by
    rw [jgStepCore_scalar st e hse, ha', hev]
    rfl
  have hkeq : st'.keys = st.keys := (assignScalar_lens st _ st' ha).1
  by_cases hp : st.keys = pfx
  · have hstep := jgStep_core_pos pfx st e st' (JValue.toH W) hcore
      (by rw [hkeq, hp])
    rw [jgExec_cons_ok pfx st e rest _ _ hstep,
      jgYields_cons_some pfx st e rest _ _ hstep, if_pos hp]
    have hfl : (!(decide (st.keys = pfx))) = false := by simp [hp]
    rw [hfl]
    exact ⟨rfl, rfl⟩
  · have hstep := jgStep_core_neg pfx st e st' (JValue.toH W) true hcore
      (fun hc => hp (by rw [← hkeq]; exact hc))
    rw [jgExec_cons_ok pfx st e rest _ _ hstep,
      jgYields_cons_none pfx st e rest _ hstep, if_neg hp]
    have hfl : (!(decide (st.keys = pfx))) = true := by simp [hp]
    rw [hfl]
    exact ⟨rfl, rfl⟩

mutual
/-- Phase 2 consuming the event encoding of one value `W` under a
nonempty keys stack strictly outside the target prefix: the net state
effect is the single assignment of `toH W` through the current key and
top container, with the flag then set by `W`'s last event — cleared
again by the yield that happens exactly when the keys stack equals the
target, in which case `toH W` is the yielded value. -/
theorem jg_toEvents (W : JValue) (pfx : List String) (st st' : HState)
    (rest : List Event) (hk : st.keys ≠ [])
    (hni : ∀ ext, ext ≠ [] → st.keys ++ ext ≠ pfx)
    (hnd : noDupKeys W = true)
    (ha : assignScalar st (JValue.toH W) = .ok st') :
    jgExec pfx st (toEvents W ++ rest) =
      jgExec pfx { st' with flag := !(decide (st.keys = pfx)) } rest ∧
    jgYields pfx st (toEvents W ++ rest) =
      (if st.keys = pfx then [JValue.toH W] else []) ++
        jgYields pfx { st' with flag := !(decide (st.keys = pfx)) } rest := by
  match W with
  | .null => exact jg_scalar_step pfx st st' .null .null rfl rfl ha rest
  | .bool b => exact jg_scalar_step pfx st st' (.boolean b) (.bool b) rfl rfl ha rest
  | .num n => exact jg_scalar_step pfx st st' (.number n) (.num n) rfl rfl ha rest
  | .str sv => exact jg_scalar_step pfx st st' (.string sv) (.str sv) rfl rfl ha rest
  | .obj es =>
      obtain ⟨key, f0, hkey, hf0, hshape⟩ := assignScalar_inv st _ _ ha
      have hdata : st.data = st.data.dropLast ++ [f0] := decomp_getLast? _ _ hf0
      have hie : st.keys.isEmpty = false := isEmpty_false_of_ne_nil _ hk
      have hsplit : nodupKeys (es.map Prod.fst) = true ∧ noDupKeysE es = true := by
        have h0 := hnd
        rw [show noDupKeys (.obj es) =
          (nodupKeys (es.map Prod.fst) && noDupKeysE es) from rfl,
          Bool.and_eq_true] at h0
        exact h0
      have hfr2 : (⟨.hmap [], st.keys.getLast?.getD "", !st.keys.isEmpty, false⟩ :
          HFrame) = ⟨.hmap [], key, true, false⟩ := by
        rw [hkey, hie]
        rfl
      have hcore1 : jgStepCore st .start_map =
          .ok (pushFrame st ⟨.hmap [], key, true, false⟩, .null, st.flag) := by
        rw [jgStepCore_start_map st (by rw [hie]; simp) f0 hf0, hfr2]
      have hpush : pushFrame st ⟨.hmap [], key, true, false⟩ =
          ⟨st.keys ++ ["item"], st.data ++ [⟨.hmap [], key, true, false⟩],
           st.selfDone, st.flag⟩ := rfl
      have hstep1' : jgStep pfx st .start_map =
          .ok (⟨st.keys ++ ["item"], st.data ++ [⟨.hmap [], key, true, false⟩],
            st.selfDone, st.flag⟩, none) := by
        rw [jgStep_core_neg pfx st .start_map _ _ _ hcore1
          (hni ["item"] (by simp))]
        rw [show ({ pushFrame st ⟨.hmap [], key, true, false⟩ with flag := st.flag } :
          HState) = pushFrame st ⟨.hmap [], key, true, false⟩ from rfl, hpush]
      obtain ⟨xl, hE1, hE2⟩ := jg_toEventsE es pfx (.end_map :: rest) st.keys "item"
        st.data (⟨.hmap [], key, true, false⟩ : HFrame) [] st.selfDone st.flag rfl
        (fun k _ ext => hni (k :: ext) (by simp))
        hsplit.2
      have hclose : HCont.close (.hmap (foldUpsertH [] (toHE es))) =
          JValue.toH (.obj es) := by
        rw [show foldUpsertH [] (toHE es) = [] ++ toHE es from
          foldUpsertH_of_nodup [] (toHE es) (by
            rw [show ([] : List (String × HValue)).map Prod.fst = [] from rfl,
              List.nil_append, toHE_fst]
            exact nodup_of_nodupKeys _ hsplit.1)]
        rfl
      have hpop : popStep ⟨st.keys ++ [xl],
          (st.data.dropLast ++ [f0]) ++
            [{ (⟨.hmap [], key, true, false⟩ : HFrame) with
               cont := .hmap (foldUpsertH [] (toHE es)) }],
          st.selfDone, if es.isEmpty then st.flag else true⟩ =
          .ok (⟨st.keys, st'.data, st.selfDone,
            if es.isEmpty then st.flag else true⟩, JValue.toH (.obj es)) := by
        rw [popStep_child st.keys xl (st.data.dropLast) f0
          ({ (⟨.hmap [], key, true, false⟩ : HFrame) with
             cont := .hmap (foldUpsertH [] (toHE es)) }) st.selfDone _ rfl rfl]
        rcases hshape with ⟨es0, hc0, hst'⟩ | ⟨xs0, hc0, hst'⟩
        · rw [hc0]
          dsimp only
          rw [hclose, hst']
        · rw [hc0]
          dsimp only
          rw [hclose, hst']
      have hcore3 : jgStepCore ⟨st.keys ++ [xl],
          (st.data.dropLast ++ [f0]) ++
            [{ (⟨.hmap [], key, true, false⟩ : HFrame) with
               cont := .hmap (foldUpsertH [] (toHE es)) }],
          st.selfDone, if es.isEmpty then st.flag else true⟩ .end_map =
          .ok (⟨st.keys, st'.data, st.selfDone,
            if es.isEmpty then st.flag else true⟩, JValue.toH (.obj es), true) := by
        show (popStep _).map (fun r => (r.1, r.2, true)) = _
        rw [hpop]
        rfl
      have hsd : st'.selfDone = st.selfDone := (assignScalar_lens st _ st' ha).2.2.1
      have hkeq : st'.keys = st.keys := (assignScalar_lens st _ st' ha).1
      have hevsplit : toEvents (.obj es) ++ rest =
          .start_map :: (toEventsE es ++ (.end_map :: rest)) := by
        rw [show toEvents (.obj es) = .start_map :: (toEventsE es ++ [.end_map])
          from rfl]
        simp
      rw [hevsplit,
        jgExec_cons_ok pfx st .start_map _ _ _ hstep1',
        jgYields_cons_none pfx st .start_map _ _ hstep1']
      rw [hE1, hE2]
      rw [show (⟨st.keys ++ [xl],
        st.data ++ [{ (⟨.hmap [], key, true, false⟩ : HFrame) with
          cont := .hmap (foldUpsertH [] (toHE es)) }],
        st.selfDone, if es.isEmpty then st.flag else true⟩ : HState) =
        ⟨st.keys ++ [xl], (st.data.dropLast ++ [f0]) ++
          [{ (⟨.hmap [], key, true, false⟩ : HFrame) with
             cont := .hmap (foldUpsertH [] (toHE es)) }],
          st.selfDone, if es.isEmpty then st.flag else true⟩ from by rw [← hdata]]
      by_cases hp : st.keys = pfx
      · have hstep3 := jgStep_core_pos pfx _ .end_map _ _ hcore3 hp
        rw [jgExec_cons_ok pfx _ .end_map _ _ _ hstep3,
          jgYields_cons_some pfx _ .end_map _ _ _ hstep3, if_pos hp]
        have hfl : (!(decide (st.keys = pfx))) = false := by simp [hp]
        rw [hfl]
        rw [show ({ st' with flag := false } : HState) =
          ⟨st.keys, st'.data, st.selfDone, false⟩ from by rw [← hkeq, ← hsd]]
        exact ⟨rfl, rfl⟩
      · have hstep3 := jgStep_core_neg pfx _ .end_map _ _ _ hcore3 hp
        rw [jgExec_cons_ok pfx _ .end_map _ _ _ hstep3,
          jgYields_cons_none pfx _ .end_map _ _ hstep3, if_neg hp]
        have hfl : (!(decide (st.keys = pfx))) = true := by simp [hp]
        rw [hfl]
        rw [show ({ st' with flag := true } : HState) =
          ⟨st.keys, st'.data, st.selfDone, true⟩ from by rw [← hkeq, ← hsd]]
        exact ⟨rfl, rfl⟩
  | .arr xs =>
      obtain ⟨key, f0, hkey, hf0, hshape⟩ := assignScalar_inv st _ _ ha
      have hdata : st.data = st.data.dropLast ++ [f0] := decomp_getLast? _ _ hf0
      have hie : st.keys.isEmpty = false := isEmpty_false_of_ne_nil _ hk
      have hndl : noDupKeysL xs = true := by
        have h0 := hnd
        rwa [show noDupKeys (.arr xs) = noDupKeysL xs from rfl] at h0
      have hfr2 : (⟨.harr [], st.keys.getLast?.getD "", !st.keys.isEmpty, false⟩ :
          HFrame) = ⟨.harr [], key, true, false⟩ := by
        rw [hkey, hie]
        rfl
      have hcore1 : jgStepCore st .start_array =
          .ok (pushFrame st ⟨.harr [], key, true, false⟩, .null, st.flag) := by
        rw [jgStepCore_start_array st (by rw [hie]; simp) f0 hf0, hfr2]
      have hpush : pushFrame st ⟨.harr [], key, true, false⟩ =
          ⟨st.keys ++ ["item"], st.data ++ [⟨.harr [], key, true, false⟩],
           st.selfDone, st.flag⟩ := rfl
      have hstep1' : jgStep pfx st .start_array =
          .ok (⟨st.keys ++ ["item"], st.data ++ [⟨.harr [], key, true, false⟩],
            st.selfDone, st.flag⟩, none) := by
        rw [jgStep_core_neg pfx st .start_array _ _ _ hcore1
          (hni ["item"] (by simp))]
        rw [show ({ pushFrame st ⟨.harr [], key, true, false⟩ with flag := st.flag } :
          HState) = pushFrame st ⟨.harr [], key, true, false⟩ from rfl, hpush]
      obtain ⟨hL1, hL2⟩ := jg_toEventsL xs pfx (.end_array :: rest)
        (st.keys ++ ["item"]) st.data (⟨.harr [], key, true, false⟩ : HFrame) []
        st.selfDone st.flag rfl (by simp)
        (fun ext => by
          rw [List.append_assoc]
          exact hni ("item" :: ext) (by simp))
        hndl
      have hclose : HCont.close (.harr ([] ++ toHL xs)) = JValue.toH (.arr xs) := by
        rw [List.nil_append]
        rfl
      have hpop : popStep ⟨st.keys ++ ["item"],
          (st.data.dropLast ++ [f0]) ++
            [{ (⟨.harr [], key, true, false⟩ : HFrame) with
               cont := .harr ([] ++ toHL xs) }],
          st.selfDone, if xs.isEmpty then st.flag else true⟩ =
          .ok (⟨st.keys, st'.data, st.selfDone,
            if xs.isEmpty then st.flag else true⟩, JValue.toH (.arr xs)) := by
        rw [popStep_child st.keys "item" (st.data.dropLast) f0
          ({ (⟨.harr [], key, true, false⟩ : HFrame) with
             cont := .harr ([] ++ toHL xs) }) st.selfDone _ rfl rfl]
        rcases hshape with ⟨es0, hc0, hst'⟩ | ⟨xs0, hc0, hst'⟩
        · rw [hc0]
          dsimp only
          rw [hclose, hst']
        · rw [hc0]
          dsimp only
          rw [hclose, hst']
      have hcore3 : jgStepCore ⟨st.keys ++ ["item"],
          (st.data.dropLast ++ [f0]) ++
            [{ (⟨.harr [], key, true, false⟩ : HFrame) with
               cont := .harr ([] ++ toHL xs) }],
          st.selfDone, if xs.isEmpty then st.flag else true⟩ .end_array =
          .ok (⟨st.keys, st'.data, st.selfDone,
            if xs.isEmpty then st.flag else true⟩, JValue.toH (.arr xs), true) := by
        show (popStep _).map (fun r => (r.1, r.2, true)) = _
        rw [hpop]
        rfl
      have hsd : st'.selfDone = st.selfDone := (assignScalar_lens st _ st' ha).2.2.1
      have hkeq : st'.keys = st.keys := (assignScalar_lens st _ st' ha).1
      have hevsplit : toEvents (.arr xs) ++ rest =
          .start_array :: (toEventsL xs ++ (.end_array :: rest)) := by
        rw [show toEvents (.arr xs) = .start_array :: (toEventsL xs ++ [.end_array])
          from rfl]
        simp
      rw [hevsplit,
        jgExec_cons_ok pfx st .start_array _ _ _ hstep1',
        jgYields_cons_none pfx st .start_array _ _ hstep1']
      rw [hL1, hL2]
      rw [show (⟨st.keys ++ ["item"],
        st.data ++ [{ (⟨.harr [], key, true, false⟩ : HFrame) with
          cont := .harr ([] ++ toHL xs) }],
        st.selfDone, if xs.isEmpty then st.flag else true⟩ : HState) =
        ⟨st.keys ++ ["item"], (st.data.dropLast ++ [f0]) ++
          [{ (⟨.harr [], key, true, false⟩ : HFrame) with
             cont := .harr ([] ++ toHL xs) }],
          st.selfDone, if xs.isEmpty then st.flag else true⟩ from by rw [← hdata]]
      by_cases hp : st.keys = pfx
      · have hstep3 := jgStep_core_pos pfx _ .end_array _ _ hcore3 hp
        rw [jgExec_cons_ok pfx _ .end_array _ _ _ hstep3,
          jgYields_cons_some pfx _ .end_array _ _ _ hstep3, if_pos hp]
        have hfl : (!(decide (st.keys = pfx))) = false := by simp [hp]
        rw [hfl]
        rw [show ({ st' with flag := false } : HState) =
          ⟨st.keys, st'.data, st.selfDone, false⟩ from by rw [← hkeq, ← hsd]]
        exact ⟨rfl, rfl⟩
      · have hstep3 := jgStep_core_neg pfx _ .end_array _ _ _ hcore3 hp
        rw [jgExec_cons_ok pfx _ .end_array _ _ _ hstep3,
          jgYields_cons_none pfx _ .end_array _ _ hstep3, if_neg hp]
        have hfl : (!(decide (st.keys = pfx))) = true := by simp [hp]
        rw [hfl]
        rw [show ({ st' with flag := true } : HState) =
          ⟨st.keys, st'.data, st.selfDone, true⟩ from by rw [← hkeq, ← hsd]]
        exact ⟨rfl, rfl⟩
termination_by sizeOf W

/-- Phase 2 over the members of an array whose keys stack never reaches
the target: members are appended to the top frame, nothing is yielded,
and the flag ends set iff the list is nonempty. -/
theorem jg_toEventsL (xs : List JValue) (pfx : List String) (rest : List Event)
    (K : List String) (dataInit : List HFrame) (fr : HFrame) (acc : List HValue)
    (sd : Option HCont) (fl : Bool)
    (hfr : fr.cont = .harr acc) (hK : K ≠ [])
    (hni : ∀ ext, K ++ ext ≠ pfx) (hnd : noDupKeysL xs = true) :
    jgExec pfx ⟨K, dataInit ++ [fr], sd, fl⟩ (toEventsL xs ++ rest) =
      jgExec pfx ⟨K, dataInit ++ [{ fr with cont := .harr (acc ++ toHL xs) }], sd,
        if xs.isEmpty then fl else true⟩ rest ∧
    jgYields pfx ⟨K, dataInit ++ [fr], sd, fl⟩ (toEventsL xs ++ rest) =
      jgYields pfx ⟨K, dataInit ++ [{ fr with cont := .harr (acc ++ toHL xs) }], sd,
        if xs.isEmpty then fl else true⟩ rest := by
  match xs with
  | [] =>
      rw [show toEventsL [] = ([] : List Event) from rfl, List.nil_append]
      rw [show toHL [] = ([] : List HValue) from rfl, List.append_nil,
        hframe_cont_eta fr (.harr acc) hfr]
      exact ⟨rfl, rfl⟩
  | x :: xs' =>
      have hx : noDupKeys x = true ∧ noDupKeysL xs' = true := by
        have h0 := hnd
        rw [show noDupKeysL (x :: xs') = (noDupKeys x && noDupKeysL xs') from rfl,
          Bool.and_eq_true] at h0
        exact h0
      have ha : assignScalar ⟨K, dataInit ++ [fr], sd, fl⟩ (JValue.toH x) =
          .ok ⟨K, dataInit ++ [{ fr with cont := .harr (acc ++ [JValue.toH x]) }],
            sd, fl⟩ :=
        assignScalar_harr _ dataInit fr acc _ hK rfl hfr
      obtain ⟨h1, h2⟩ := jg_toEvents x pfx ⟨K, dataInit ++ [fr], sd, fl⟩ _
        (toEventsL xs' ++ rest) hK (fun ext _ => hni ext) hx.1 ha
      have hKne : ¬(K = pfx) := fun hcon => hni [] (by simpa using hcon)
      have hflK : (!(decide (K = pfx))) = true := by simp [hKne]
      rw [show (⟨K, dataInit ++ [fr], sd, fl⟩ : HState).keys = K from rfl, hflK]
        at h1 h2
      obtain ⟨h3, h4⟩ := jg_toEventsL xs' pfx rest K dataInit
        ({ fr with cont := .harr (acc ++ [JValue.toH x]) }) (acc ++ [JValue.toH x])
        sd true rfl hK hni hx.2
      rw [show toEventsL (x :: xs') = toEvents x ++ toEventsL xs' from rfl,
        List.append_assoc, h1, h2, if_neg hKne]
      rw [show ({ (⟨K, dataInit ++
        [{ fr with cont := .harr (acc ++ [JValue.toH x]) }], sd, fl⟩ : HState) with
        flag := true } : HState) =
        ⟨K, dataInit ++ [{ fr with cont := .harr (acc ++ [JValue.toH x]) }], sd,
          true⟩ from rfl]
      rw [h3, h4]
      rw [show acc ++ toHL (x :: xs') = (acc ++ [JValue.toH x]) ++ toHL xs'
        from by
          rw [show toHL (x :: xs') = JValue.toH x :: toHL xs' from rfl]
          simp]
      rw [ite_self, if_neg (show ¬((x :: xs').isEmpty = true) by simp)]
      exact ⟨rfl, rfl⟩
termination_by sizeOf xs

/-- Phase 2 over the members of the array at the target path: each member
is appended to the top frame (the placeholder list) and yielded as soon
as its last event is consumed, with the flag cleared by each yield. -/
theorem jg_toEventsL_at (xs : List JValue) (pfx : List String) (rest : List Event)
    (dataInit : List HFrame) (fr : HFrame) (acc : List HValue)
    (sd : Option HCont) (fl : Bool)
    (hfr : fr.cont = .harr acc) (hK : pfx ≠ []) (hnd : noDupKeysL xs = true) :
    jgExec pfx ⟨pfx, dataInit ++ [fr], sd, fl⟩ (toEventsL xs ++ rest) =
      jgExec pfx ⟨pfx, dataInit ++ [{ fr with cont := .harr (acc ++ toHL xs) }], sd,
        if xs.isEmpty then fl else false⟩ rest ∧
    jgYields pfx ⟨pfx, dataInit ++ [fr], sd, fl⟩ (toEventsL xs ++ rest) =
      toHL xs ++
        jgYields pfx ⟨pfx, dataInit ++ [{ fr with cont := .harr (acc ++ toHL xs) }],
          sd, if xs.isEmpty then fl else false⟩ rest := by
  match xs with
  | [] =>
      rw [show toEventsL [] = ([] : List Event) from rfl, List.nil_append]
      rw [show toHL [] = ([] : List HValue) from rfl, List.append_nil,
        hframe_cont_eta fr (.harr acc) hfr]
      exact ⟨rfl, rfl⟩
  | x :: xs' =>
      have hx : noDupKeys x = true ∧ noDupKeysL xs' = true := by
        have h0 := hnd
        rw [show noDupKeysL (x :: xs') = (noDupKeys x && noDupKeysL xs') from rfl,
          Bool.and_eq_true] at h0
        exact h0
      have ha : assignScalar ⟨pfx, dataInit ++ [fr], sd, fl⟩ (JValue.toH x) =
          .ok ⟨pfx, dataInit ++ [{ fr with cont := .harr (acc ++ [JValue.toH x]) }],
            sd, fl⟩ :=
        assignScalar_harr _ dataInit fr acc _ hK rfl hfr
      obtain ⟨h1, h2⟩ := jg_toEvents x pfx ⟨pfx, dataInit ++ [fr], sd, fl⟩ _
        (toEventsL xs' ++ rest) hK
        (fun ext hext => append_ne_left pfx ext hext) hx.1 ha
      have hflK : (!(decide ((pfx : List String) = pfx))) = false := by simp
      rw [show (⟨pfx, dataInit ++ [fr], sd, fl⟩ : HState).keys = pfx from rfl, hflK]
        at h1 h2
      obtain ⟨h3, h4⟩ := jg_toEventsL_at xs' pfx rest dataInit
        ({ fr with cont := .harr (acc ++ [JValue.toH x]) }) (acc ++ [JValue.toH x])
        sd false rfl hK hx.2
      rw [show toEventsL (x :: xs') = toEvents x ++ toEventsL xs' from rfl,
        List.append_assoc, h1, h2, if_pos rfl]
      rw [show ({ (⟨pfx, dataInit ++
        [{ fr with cont := .harr (acc ++ [JValue.toH x]) }], sd, fl⟩ : HState) with
        flag := false } : HState) =
        ⟨pfx, dataInit ++ [{ fr with cont := .harr (acc ++ [JValue.toH x]) }], sd,
          false⟩ from rfl]
      rw [h3, h4]
      rw [show acc ++ toHL (x :: xs') = (acc ++ [JValue.toH x]) ++ toHL xs'
        from by
          rw [show toHL (x :: xs') = JValue.toH x :: toHL xs' from rfl]
          simp]
      rw [ite_self, if_neg (show ¬((x :: xs').isEmpty = true) by simp)]
      exact ⟨rfl, rfl⟩
termination_by sizeOf xs

/-- Phase 2 over the entries of a map whose keys stack never reaches the
target: each `map_key` rewrites the top of the keys stack, each value is
assigned under its key (duplicate keys overwriting in place), and
nothing is yielded. -/
theorem jg_toEventsE (es : List (String × JValue)) (pfx : List String)
    (rest : List Event) (K : List String) (x0 : String)
    (dataInit : List HFrame) (fr : HFrame) (acc : List (String × HValue))
    (sd : Option HCont) (fl : Bool)
    (hfr : fr.cont = .hmap acc)
    (hni : ∀ k, k ∈ es.map Prod.fst → ∀ ext, K ++ k :: ext ≠ pfx)
    (hnd : noDupKeysE es = true) :
    ∃ xl,
      jgExec pfx ⟨K ++ [x0], dataInit ++ [fr], sd, fl⟩ (toEventsE es ++ rest) =
        jgExec pfx ⟨K ++ [xl],
          dataInit ++ [{ fr with cont := .hmap (foldUpsertH acc (toHE es)) }], sd,
          if es.isEmpty then fl else true⟩ rest ∧
      jgYields pfx ⟨K ++ [x0], dataInit ++ [fr], sd, fl⟩ (toEventsE es ++ rest) =
        jgYields pfx ⟨K ++ [xl],
          dataInit ++ [{ fr with cont := .hmap (foldUpsertH acc (toHE es)) }], sd,
          if es.isEmpty then fl else true⟩ rest := by
  match es with
  | [] =>
      refine ⟨x0, ?_⟩
      rw [show toEventsE [] = ([] : List Event) from rfl, List.nil_append]
      rw [show toHE [] = ([] : List (String × HValue)) from rfl,
        show foldUpsertH acc [] = acc from rfl,
        hframe_cont_eta fr (.hmap acc) hfr]
      exact ⟨rfl, rfl⟩
  | (k, v) :: es' =>
      have hv : noDupKeys v = true ∧ noDupKeysE es' = true := by
        have h0 := hnd
        rw [show noDupKeysE ((k, v) :: es') = (noDupKeys v && noDupKeysE es')
          from rfl, Bool.and_eq_true] at h0
        exact h0
      have hcore0 : jgStepCore ⟨K ++ [x0], dataInit ++ [fr], sd, fl⟩ (.map_key k) =
          .ok (⟨K ++ [k], dataInit ++ [fr], sd, fl⟩, .str k, fl) := by
        rw [jgStepCore_map_key _ k (by simp)]
        rw [show ((⟨K ++ [x0], dataInit ++ [fr], sd, fl⟩ : HState).keys.dropLast ++
          [k]) = K ++ [k] from by
            rw [show (⟨K ++ [x0], dataInit ++ [fr], sd, fl⟩ : HState).keys =
              K ++ [x0] from rfl, List.dropLast_concat]]
      have hstep0 := jgStep_core_neg pfx _ (.map_key k) _ _ _ hcore0
        (hni k (by simp) [])
      have ha : assignScalar ⟨K ++ [k], dataInit ++ [fr], sd, fl⟩ (JValue.toH v) =
          .ok ⟨K ++ [k],
            dataInit ++ [{ fr with cont := .hmap (upsertH acc k (JValue.toH v)) }],
            sd, fl⟩ :=
        assignScalar_hmap _ k dataInit fr acc _ (List.getLast?_concat ..) rfl hfr
      obtain ⟨h1, h2⟩ := jg_toEvents v pfx ⟨K ++ [k], dataInit ++ [fr], sd, fl⟩ _
        (toEventsE es' ++ rest) (by simp)
        (fun ext hext => by
          rw [show (⟨K ++ [k], dataInit ++ [fr], sd, fl⟩ : HState).keys = K ++ [k]
            from rfl, List.append_assoc]
          exact hni k (by simp) ext) hv.1 ha
      have hKne : ¬((⟨K ++ [k], dataInit ++ [fr], sd, fl⟩ : HState).keys = pfx) := by
        rw [show (⟨K ++ [k], dataInit ++ [fr], sd, fl⟩ : HState).keys = K ++ [k]
          from rfl]
        exact hni k (by simp) []
      have hflK : (!(decide ((⟨K ++ [k], dataInit ++ [fr], sd, fl⟩ : HState).keys =
          pfx))) = true := by simp [hKne]
      rw [hflK] at h1 h2
      obtain ⟨xl, h3, h4⟩ := jg_toEventsE es' pfx rest K k dataInit
        ({ fr with cont := .hmap (upsertH acc k (JValue.toH v)) })
        (upsertH acc k (JValue.toH v)) sd true rfl
        (fun k2 hk2 ext => hni k2 (by simp [hk2]) ext) hv.2
      refine ⟨xl, ?_⟩
      rw [show toEventsE ((k, v) :: es') =
        .map_key k :: (toEvents v ++ toEventsE es') from rfl, List.cons_append,
        List.append_assoc,
        jgExec_cons_ok pfx _ (.map_key k) _ _ _ hstep0,
        jgYields_cons_none pfx _ (.map_key k) _ _ hstep0]
      rw [show ({ (⟨K ++ [k], dataInit ++ [fr], sd, fl⟩ : HState) with flag := fl } :
        HState) = ⟨K ++ [k], dataInit ++ [fr], sd, fl⟩ from rfl]
      rw [h1, h2, if_neg hKne]
      rw [show ({ (⟨K ++ [k],
        dataInit ++ [{ fr with cont := .hmap (upsertH acc k (JValue.toH v)) }],
        sd, fl⟩ : HState) with flag := true } : HState) =
        ⟨K ++ [k],
          dataInit ++ [{ fr with cont := .hmap (upsertH acc k (JValue.toH v)) }],
          sd, true⟩ from rfl]
      rw [h3, h4]
      rw [show foldUpsertH acc (toHE ((k, v) :: es')) =
        foldUpsertH (upsertH acc k (JValue.toH v)) (toHE es') from rfl]
      rw [ite_self, if_neg (show ¬(((k, v) :: es').isEmpty = true) by simp)]
      exact ⟨rfl, rfl⟩
termination_by sizeOf es
end

/-- The full hybrid pipeline on the document `{"k": xs, ...post}` with
target prefix `"k.item"`: Phase 1 eagerly links the generator object under
`"k"` in the skeleton and breaks; Phase 2 rebinds the top of the data
stack to the placeholder list, which accumulates every streamed member
while the target array is open; every member is also yielded; at the
closing `end_array` the placeholder is popped and discarded (the parent
keeps the generator), the remaining entries are built normally, and the
final skeleton still maps `"k"` to the generator object — provided no
later key equals `"k"`. -/
theorem hybrid_gen_run (xs : List JValue) (post : List (String × JValue))
    (hnd : noDupKeysL xs = true) (hndp : noDupKeysE post = true)
    (hndk : nodupKeys (post.map Prod.fst) = true)
    (hpost : ∀ kj ∈ post.map Prod.fst, kj ≠ "k") :
    spRun ["k", "item"] true hInit (toEvents (.obj (("k", .arr xs) :: post))) =
      .ok (⟨["k", "item"],
        [⟨.hmap [("k", HValue.gen)], "", false, true⟩, ⟨.hgen, "", false, false⟩],
        none, false⟩,
        toEventsL xs ++ (.end_array :: (toEventsE post ++ [.end_map])), true) ∧
    jgExec ["k", "item"]
      (genInit ⟨["k", "item"],
        [⟨.hmap [("k", HValue.gen)], "", false, true⟩, ⟨.hgen, "", false, false⟩],
        none, false⟩)
      (toEventsL xs) =
      ⟨["k", "item"],
        [⟨.hmap [("k", HValue.gen)], "", false, true⟩,
         ⟨.harr (toHL xs), "", false, false⟩],
        none, false⟩ ∧
    jgYields ["k", "item"]
      (genInit ⟨["k", "item"],
        [⟨.hmap [("k", HValue.gen)], "", false, true⟩, ⟨.hgen, "", false, false⟩],
        none, false⟩)
      (toEventsL xs ++ (.end_array :: (toEventsE post ++ [.end_map]))) =
      toHL xs ∧
    jgExec ["k", "item"]
      (genInit ⟨["k", "item"],
        [⟨.hmap [("k", HValue.gen)], "", false, true⟩, ⟨.hgen, "", false, false⟩],
        none, false⟩)
      (toEventsL xs ++ (.end_array :: (toEventsE post ++ [.end_map]))) =
      ⟨[], [], some (.hmap (("k", HValue.gen) :: toHE post)), true⟩ := by
  have hev : toEvents (.obj (("k", .arr xs) :: post)) =
      .start_map :: .map_key "k" :: .start_array ::
        (toEventsL xs ++ (.end_array :: (toEventsE post ++ [.end_map]))) := by
    rw [show toEvents (.obj (("k", .arr xs) :: post)) =
      .start_map :: (toEventsE (("k", .arr xs) :: post) ++ [.end_map]) from rfl,
      show toEventsE (("k", .arr xs) :: post) =
        .map_key "k" :: (toEvents (.arr xs) ++ toEventsE post) from rfl,
      show toEvents (.arr xs) = .start_array :: (toEventsL xs ++ [.end_array])
        from rfl]
    simp
  have hA : spRun ["k", "item"] true hInit
      (toEvents (.obj (("k", .arr xs) :: post))) =
      .ok (⟨["k", "item"],
        [⟨.hmap [("k", HValue.gen)], "", false, true⟩, ⟨.hgen, "", false, false⟩],
        none, false⟩,
        toEventsL xs ++ (.end_array :: (toEventsE post ++ [.end_map])), true) := by
    rw [hev]
    rfl
  have hgen : genInit ⟨["k", "item"],
      [⟨.hmap [("k", HValue.gen)], "", false, true⟩, ⟨.hgen, "", false, false⟩],
      none, false⟩ =
      ⟨["k", "item"],
        [⟨.hmap [("k", HValue.gen)], "", false, true⟩] ++
          [⟨.harr [], "", false, false⟩],
        none, false⟩ := rfl
  -- Phase 2 over the streamed members, stopping before the closing event
  obtain ⟨hM1, -⟩ := jg_toEventsL_at xs ["k", "item"] []
    [⟨.hmap [("k", HValue.gen)], "", false, true⟩]
    (⟨.harr [], "", false, false⟩ : HFrame) [] none false rfl (by simp) hnd
  rw [ite_self, List.nil_append] at hM1
  have hB : jgExec ["k", "item"]
      (genInit ⟨["k", "item"],
        [⟨.hmap [("k", HValue.gen)], "", false, true⟩, ⟨.hgen, "", false, false⟩],
        none, false⟩)
      (toEventsL xs) =
      ⟨["k", "item"],
        [⟨.hmap [("k", HValue.gen)], "", false, true⟩,
         ⟨.harr (toHL xs), "", false, false⟩],
        none, false⟩ := by
    rw [hgen, show toEventsL xs = toEventsL xs ++ [] from (List.append_nil _).symm,
      hM1]
    rfl
  -- Phase 2 over the streamed members, with the closing events to follow
  obtain ⟨hL1, hL2⟩ := jg_toEventsL_at xs ["k", "item"]
    (.end_array :: (toEventsE post ++ [.end_map]))
    [⟨.hmap [("k", HValue.gen)], "", false, true⟩]
    (⟨.harr [], "", false, false⟩ : HFrame) [] none false rfl (by simp) hnd
  rw [ite_self, List.nil_append] at hL1 hL2
  -- the closing end_array: the placeholder pops, unlinked, and is dropped
  have hpop5 : popStep ⟨["k", "item"],
      [⟨.hmap [("k", HValue.gen)], "", false, true⟩] ++
        [{ (⟨.harr [], "", false, false⟩ : HFrame) with cont := .harr (toHL xs) }],
      none, false⟩ =
      .ok (⟨["k"], [⟨.hmap [("k", HValue.gen)], "", false, true⟩], none, false⟩,
        .arr (toHL xs)) := by
    show popStep ⟨["k"] ++ ["item"],
      [⟨.hmap [("k", HValue.gen)], "", false, true⟩] ++
        [{ (⟨.harr [], "", false, false⟩ : HFrame) with cont := .harr (toHL xs) }],
      none, false⟩ = _
    rw [popStep_unlinked ["k"] "item"
      [⟨.hmap [("k", HValue.gen)], "", false, true⟩]
      ({ (⟨.harr [], "", false, false⟩ : HFrame) with cont := .harr (toHL xs) })
      none false rfl]
    rfl
  have hcore5 : jgStepCore ⟨["k", "item"],
      [⟨.hmap [("k", HValue.gen)], "", false, true⟩] ++
        [{ (⟨.harr [], "", false, false⟩ : HFrame) with cont := .harr (toHL xs) }],
      none, false⟩ .end_array =
      .ok (⟨["k"], [⟨.hmap [("k", HValue.gen)], "", false, true⟩], none, false⟩,
        .arr (toHL xs), true) := by
    rw [jgStepCore_end_array, hpop5]
    rfl
  have hstep5 := jgStep_core_neg ["k", "item"] _ .end_array _ _ _ hcore5 (by simp)
  -- the trailing entries of the skeleton map
  have hniE : ∀ kj, kj ∈ post.map Prod.fst → ∀ ext,
      ([] : List String) ++ kj :: ext ≠ ["k", "item"] := by
    intro kj hm ext hcon
    simp at hcon
    exact hpost kj hm hcon.1
  obtain ⟨xl, hE1, hE2⟩ := jg_toEventsE post ["k", "item"] [.end_map] [] "k" []
    (⟨.hmap [("k", HValue.gen)], "", false, true⟩ : HFrame)
    [("k", HValue.gen)] none true rfl hniE hndp
  rw [ite_self] at hE1 hE2
  have hnodup : ([("k", HValue.gen)].map Prod.fst ++
      (toHE post).map Prod.fst).Nodup := by
    rw [toHE_fst]
    show (["k"] ++ post.map Prod.fst).Nodup
    rw [List.singleton_append]
    exact List.nodup_cons.mpr ⟨fun hm => hpost "k" hm rfl,
      nodup_of_nodupKeys _ hndk⟩
  have hfu : foldUpsertH [("k", HValue.gen)] (toHE post) =
      ("k", HValue.gen) :: toHE post :=
    (foldUpsertH_of_nodup _ _ hnodup).trans rfl
  rw [hfu] at hE1 hE2
  -- the final end_map: the self frame pops, recording the skeleton
  have hpop6 : popStep ⟨([] : List String) ++ [xl],
      ([] : List HFrame) ++
        [{ (⟨.hmap [("k", HValue.gen)], "", false, true⟩ : HFrame) with
           cont := .hmap (("k", HValue.gen) :: toHE post) }],
      none, true⟩ =
      .ok (⟨[], [], some (.hmap (("k", HValue.gen) :: toHE post)), true⟩,
        .obj (("k", HValue.gen) :: toHE post)) := by
    rw [popStep_unlinked [] xl []
      ({ (⟨.hmap [("k", HValue.gen)], "", false, true⟩ : HFrame) with
         cont := .hmap (("k", HValue.gen) :: toHE post) })
      none true rfl]
    rfl
  have hcore6 : jgStepCore ⟨([] : List String) ++ [xl],
      ([] : List HFrame) ++
        [{ (⟨.hmap [("k", HValue.gen)], "", false, true⟩ : HFrame) with
           cont := .hmap (("k", HValue.gen) :: toHE post) }],
      none, true⟩ .end_map =
      .ok (⟨[], [], some (.hmap (("k", HValue.gen) :: toHE post)), true⟩,
        .obj (("k", HValue.gen) :: toHE post), true) := by
    rw [jgStepCore_end_map, hpop6]
    rfl
  have hstep6 := jgStep_core_neg ["k", "item"] _ .end_map _ _ _ hcore6 (by simp)
  have hD : jgExec ["k", "item"]
      (genInit ⟨["k", "item"],
        [⟨.hmap [("k", HValue.gen)], "", false, true⟩, ⟨.hgen, "", false, false⟩],
        none, false⟩)
      (toEventsL xs ++ (.end_array :: (toEventsE post ++ [.end_map]))) =
      ⟨[], [], some (.hmap (("k", HValue.gen) :: toHE post)), true⟩ := by
    rw [hgen, hL1, jgExec_cons_ok _ _ .end_array _ _ _ hstep5]
    rw [show ({ (⟨["k"], [⟨.hmap [("k", HValue.gen)], "", false, true⟩], none,
      false⟩ : HState) with flag := true } : HState) =
      ⟨([] : List String) ++ ["k"],
       ([] : List HFrame) ++ [⟨.hmap [("k", HValue.gen)], "", false, true⟩],
       none, true⟩ from rfl]
    rw [hE1, jgExec_cons_ok _ _ .end_map _ _ _ hstep6]
    rfl
  have hC : jgYields ["k", "item"]
      (genInit ⟨["k", "item"],
        [⟨.hmap [("k", HValue.gen)], "", false, true⟩, ⟨.hgen, "", false, false⟩],
        none, false⟩)
      (toEventsL xs ++ (.end_array :: (toEventsE post ++ [.end_map]))) =
      toHL xs := by
    rw [hgen, hL2, jgYields_cons_none _ _ .end_array _ _ hstep5]
    rw [show ({ (⟨["k"], [⟨.hmap [("k", HValue.gen)], "", false, true⟩], none,
      false⟩ : HState) with flag := true } : HState) =
      ⟨([] : List String) ++ ["k"],
       ([] : List HFrame) ++ [⟨.hmap [("k", HValue.gen)], "", false, true⟩],
       none, true⟩ from rfl]
    rw [hE2, jgYields_cons_none _ _ .end_map _ _ hstep6]
    rw [show jgYields ["k", "item"]
      ({ (⟨[], [], some (.hmap (("k", HValue.gen) :: toHE post)), true⟩ :
        HState) with flag := true }) [] = [] from rfl]
    rw [List.append_nil]
  exact ⟨hA, hB, hC, hD⟩

/-! ## Last-write-wins for duplicate map keys -/

theorem foldUpsert_append (l1 l2 : List (String × JValue))
    (acc : List (String × JValue)) :
    foldUpsert acc (l1 ++ l2) = foldUpsert (foldUpsert acc l1) l2 := by
  induction l1 generalizing acc with
  | nil => rfl
  | cons p rest ih =>
      obtain ⟨k, v⟩ := p
      rw [List.cons_append,
        show foldUpsert acc ((k, v) :: (rest ++ l2)) =
          foldUpsert (upsert acc k v) (rest ++ l2) from rfl,
        ih (upsert acc k v)]
      rfl

theorem lookup_upsert_self (es : List (String × JValue)) (k : String)
    (v : JValue) : lookup (upsert es k v) k = some v := by
  induction es with
  | nil => simp [upsert, lookup]
  | cons p rest ih =>
      obtain ⟨k', v'⟩ := p
      by_cases hk : k' = k
      · rw [show upsert ((k', v') :: rest) k v =
          (if k' = k then (k, v) :: rest else (k', v') :: upsert rest k v)
          from rfl, if_pos hk]
        simp [lookup]
      · rw [show upsert ((k', v') :: rest) k v =
          (if k' = k then (k, v) :: rest else (k', v') :: upsert rest k v)
          from rfl, if_neg hk,
          show lookup ((k', v') :: upsert rest k v) k =
            (if k' = k then some v' else lookup (upsert rest k v) k) from rfl,
          if_neg hk, ih]

theorem lookup_upsert_ne (es : List (String × JValue)) (k k' : String)
    (v : JValue) (h : ¬(k' = k)) :
    lookup (upsert es k v) k' = lookup es k' := by
  induction es with
  | nil =>
      rw [show upsert [] k v = [(k, v)] from rfl,
        show lookup [(k, v)] k' = (if k = k' then some v else lookup [] k')
          from rfl, if_neg (fun hc => h hc.symm)]
  | cons p rest ih =>
      obtain ⟨k2, v2⟩ := p
      by_cases hk : k2 = k
      · rw [show upsert ((k2, v2) :: rest) k v =
          (if k2 = k then (k, v) :: rest else (k2, v2) :: upsert rest k v)
          from rfl, if_pos hk,
          show lookup ((k, v) :: rest) k' =
            (if k = k' then some v else lookup rest k') from rfl,
          if_neg (fun hc => h hc.symm),
          show lookup ((k2, v2) :: rest) k' =
            (if k2 = k' then some v2 else lookup rest k') from rfl,
          if_neg (fun hc => h (hc.symm.trans hk))]
      · rw [show upsert ((k2, v2) :: rest) k v =
          (if k2 = k then (k, v) :: rest else (k2, v2) :: upsert rest k v)
          from rfl, if_neg hk,
          show lookup ((k2, v2) :: upsert rest k v) k' =
            (if k2 = k' then some v2 else lookup (upsert rest k v) k') from rfl,
          show lookup ((k2, v2) :: rest) k' =
            (if k2 = k' then some v2 else lookup rest k') from rfl, ih]

theorem lookup_foldUpsert_no_key (l2 : List (String × JValue))
    (acc : List (String × JValue)) (k : String)
    (h : k ∉ l2.map Prod.fst) :
    lookup (foldUpsert acc l2) k = lookup acc k := by
  induction l2 generalizing acc with
  | nil => rfl
  | cons p rest ih =>
      obtain ⟨k2, v2⟩ := p
      rw [show foldUpsert acc ((k2, v2) :: rest) =
        foldUpsert (upsert acc k2 v2) rest from rfl,
        ih (upsert acc k2 v2) (fun hm => h (by simp [hm])),
        lookup_upsert_ne acc k2 k v2 (fun hc => h (by simp [hc]))]

theorem mem_upsert_fst (es : List (String × JValue)) (k : String) (v : JValue)
    (a : String) (h : a ∈ (upsert es k v).map Prod.fst) :
    a ∈ es.map Prod.fst ∨ a = k := by
  induction es with
  | nil =>
      rw [show upsert [] k v = [(k, v)] from rfl] at h
      simp at h
      exact Or.inr h
  | cons p rest ih =>
      obtain ⟨k2, v2⟩ := p
      by_cases hk : k2 = k
      · rw [show upsert ((k2, v2) :: rest) k v =
          (if k2 = k then (k, v) :: rest else (k2, v2) :: upsert rest k v)
          from rfl, if_pos hk, List.map_cons] at h
        rcases List.mem_cons.mp h with h | h
        · exact Or.inr h
        · exact Or.inl (by rw [List.map_cons]; exact List.mem_cons_of_mem _ h)
      · rw [show upsert ((k2, v2) :: rest) k v =
          (if k2 = k then (k, v) :: rest else (k2, v2) :: upsert rest k v)
          from rfl, if_neg hk, List.map_cons] at h
        rcases List.mem_cons.mp h with h | h
        · exact Or.inl (by rw [List.map_cons, h]; exact List.mem_cons_self _ _)
        · rcases ih h with h2 | h2
          · exact Or.inl (by rw [List.map_cons]; exact List.mem_cons_of_mem _ h2)
          · exact Or.inr h2

theorem upsert_fst_nodup (es : List (String × JValue)) (k : String) (v : JValue)
    (h : (es.map Prod.fst).Nodup) : ((upsert es k v).map Prod.fst).Nodup := by
  induction es with
  | nil => simp [upsert]
  | cons p rest ih =>
      obtain ⟨k2, v2⟩ := p
      rw [List.map_cons, List.nodup_cons] at h
      by_cases hk : k2 = k
      · rw [show upsert ((k2, v2) :: rest) k v =
          (if k2 = k then (k, v) :: rest else (k2, v2) :: upsert rest k v)
          from rfl, if_pos hk]
        rw [List.map_cons, List.nodup_cons]
        exact ⟨fun hm => h.1 (hk ▸ hm), h.2⟩
      · rw [show upsert ((k2, v2) :: rest) k v =
          (if k2 = k then (k, v) :: rest else (k2, v2) :: upsert rest k v)
          from rfl, if_neg hk]
        rw [List.map_cons, List.nodup_cons]
        refine ⟨fun hm => ?_, ih h.2⟩
        rcases mem_upsert_fst rest k v k2 hm with h2 | h2
        · exact h.1 h2
        · exact hk h2

theorem foldUpsert_fst_nodup (es : List (String × JValue))
    (acc : List (String × JValue)) (h : (acc.map Prod.fst).Nodup) :
    ((foldUpsert acc es).map Prod.fst).Nodup := by
  induction es generalizing acc with
  | nil => exact h
  | cons p rest ih =>
      obtain ⟨k, v⟩ := p
      exact ih (upsert acc k v) (upsert_fst_nodup acc k v h)

theorem runB_obj (es : List (String × JValue)) (h : noDupKeysE es = true) :
    (runB Builder.init (toEvents (.obj es))).value =
      some (.obj (foldUpsert [] es)) := by
  rw [show toEvents (.obj es) = .start_map :: (toEventsE es ++ [.end_map])
    from rfl, runB_cons,
    show Builder.init.event .start_map = (⟨"", none, [.mapS [] ""]⟩ : Builder)
      from rfl, runB_append]
  obtain ⟨kf, hE⟩ := runB_toEventsE es h "" none [] "" []
  rw [hE, runB_cons, runB_nil]
  rfl

/-! ## The claims -/

/-- C1.  Feeding the flat event encoding of a value `V` without duplicate
map keys into a fresh builder leaves `V` itself — scalars, array order and
object entry order included — in the `value` attribute. -/
theorem claim_C1 (V : JValue) (h : noDupKeys V = true) :
    (runB Builder.init (toEvents V)).value = some V := by
  obtain ⟨k, hr⟩ := runB_toEvents V h Builder.init
  rw [hr]
  rfl

theorem claim_C1_witness :
    noDupKeys (.obj [("a", .arr [.num 1, .num 2]), ("b", .str "s")]) = true ∧
    (runB Builder.init
      (toEvents (.obj [("a", .arr [.num 1, .num 2]), ("b", .str "s")]))).value =
      some (.obj [("a", .arr [.num 1, .num 2]), ("b", .str "s")]) :=
  ⟨rfl, claim_C1 _ rfl⟩

/-- C3.  On the seven-event stream of `{"a": [1, 2]}` the annotator yields
exactly the prefixes `"", "", "a", "a.item", "a.item", "a", ""` paired with
the input events; and whenever a `map_key` event succeeds, the emitted
prefix is the join of the path stack minus its last segment and the new
path is the stack with that last segment replaced by the key. -/
theorem claim_C3 :
    parseOuts [.start_map, .map_key "a", .start_array, .number 1, .number 2,
      .end_array, .end_map] =
      [("", .start_map), ("", .map_key "a"), ("a", .start_array),
       ("a.item", .number 1), ("a.item", .number 2), ("a", .end_array),
       ("", .end_map)] ∧
    ∀ (path : List (Option String)) (k : String) (pfx : String)
      (path' : List (Option String)),
      pstep path (.map_key k) = .ok (pfx, path') →
        joinP path.dropLast = some pfx ∧ path' = path.dropLast ++ [some k] := by
  refine ⟨rfl, ?_⟩
  intro path k pfx path' h
  unfold pstep at h
  cases hj : joinP path.dropLast with
  | none => rw [hj] at h; exact absurd h (by simp)
  | some q =>
      rw [hj] at h
      dsimp only at h
      by_cases he : path.isEmpty = true
      · rw [if_pos he] at h; exact absurd h (by simp)
      · rw [if_neg he] at h
        injection h with h
        obtain ⟨h1, h2⟩ := Prod.mk.injEq .. ▸ h
        exact ⟨by rw [h1], h2.symm⟩

theorem claim_C3_witness :
    pstep [some "a"] (.map_key "b") = .ok ("", [some "b"]) ∧
    (joinP ([some "a"] : List (Option String)).dropLast = some "" ∧
     ([some "b"] : List (Option String)) =
       ([some "a"] : List (Option String)).dropLast ++ [some "b"]) :=
  ⟨rfl, claim_C3.2 [some "a"] "b" "" [some "b"] rfl⟩

/-- C7 (amended).  In this module a lone `StartMap` does not fault: the
annotator yields its single prefixed event and stops with the container
still open, the item extractor ends silently without yielding, the builder
is left observably holding the empty object, and an empty source runs
through both without any error — the incomplete-data error class is never
raised here. -/
theorem claim_C7 :
    parseRun [] [.start_map] = ([("", .start_map)], [none], none) ∧
    itemsGo "" (parseOuts [.start_map]) = [] ∧
    (runB Builder.init [.start_map]).valueNow = some (.obj []) ∧
    parseRun [] ([] : List Event) = ([], [], none) ∧
    itemsGo "" (parseOuts []) = [] :=
  ⟨rfl, rfl, rfl, rfl, rfl⟩

theorem claim_C7_counterexample :
    (parseRun [] [.start_map]).2.2 = none ∧
    itemsGo "" (parseOuts [.start_map]) = [] ∧
    (runB Builder.init [.start_map]).valueNow = some (.obj []) ∧
    (parseRun [] ([] : List Event)).2.2 = none :=
  ⟨rfl, rfl, rfl, rfl⟩

/-- C8.  An `end_map`/`end_array` arriving while the annotator's path
stack is empty faults with the index error immediately: the run emits no
prefixed event for it. -/
theorem claim_C8 :
    pstep [] .end_map = .error .indexError ∧
    pstep [] .end_array = .error .indexError ∧
    ∀ (e : Event) (rest : List Event), e = .end_map ∨ e = .end_array →
      parseRun [] (e :: rest) = ([], [], some .indexError) := by
  refine ⟨rfl, rfl, ?_⟩
  intro e rest he
  rcases he with he | he
  · rw [he]
    rfl
  · rw [he]
    rfl

theorem claim_C8_witness :
    ((.end_map : Event) = .end_map ∨ (.end_map : Event) = .end_array) ∧
    parseRun [] [.end_map, .null] = ([], [], some .indexError) :=
  ⟨Or.inl rfl, claim_C8.2.2 .end_map [.null] (Or.inl rfl)⟩

/-- C9.  When a map key occurs more than once in one object (nested values
themselves duplicate-free), the builder's resulting object maps that key to
the value of its last occurrence, and the resulting keys are unique. -/
theorem claim_C9 (es₁ es₂ : List (String × JValue)) (k : String) (v : JValue)
    (hnot : k ∉ es₂.map Prod.fst)
    (hnd : noDupKeysE (es₁ ++ (k, v) :: es₂) = true) :
    (runB Builder.init (toEvents (.obj (es₁ ++ (k, v) :: es₂)))).value =
      some (.obj (foldUpsert [] (es₁ ++ (k, v) :: es₂))) ∧
    lookup (foldUpsert [] (es₁ ++ (k, v) :: es₂)) k = some v ∧
    ((foldUpsert [] (es₁ ++ (k, v) :: es₂)).map Prod.fst).Nodup := by
  refine ⟨runB_obj _ hnd, ?_, foldUpsert_fst_nodup _ [] (by simp)⟩
  rw [foldUpsert_append]
  rw [show foldUpsert (foldUpsert [] es₁) ((k, v) :: es₂) =
    foldUpsert (upsert (foldUpsert [] es₁) k v) es₂ from rfl]
  rw [lookup_foldUpsert_no_key es₂ _ k hnot]
  exact lookup_upsert_self _ k v

theorem claim_C9_witness :
    ("a" ∉ ([("b", JValue.num 3)] : List (String × JValue)).map Prod.fst) ∧
    noDupKeysE ([("a", .num 1)] ++ ("a", JValue.num 2) :: [("b", .num 3)]) =
      true ∧
    ((runB Builder.init
        (toEvents (.obj ([("a", .num 1)] ++ ("a", JValue.num 2) ::
          [("b", .num 3)])))).value =
      some (.obj (foldUpsert [] ([("a", .num 1)] ++ ("a", JValue.num 2) ::
        [("b", .num 3)]))) ∧
     lookup (foldUpsert [] ([("a", .num 1)] ++ ("a", JValue.num 2) ::
       [("b", .num 3)])) "a" = some (JValue.num 2) ∧
     ((foldUpsert [] ([("a", .num 1)] ++ ("a", JValue.num 2) ::
       [("b", .num 3)])).map Prod.fst).Nodup) :=
  ⟨by simp, rfl,
   claim_C9 [("a", .num 1)] [("b", .num 3)] "a" (JValue.num 2) (by simp) rfl⟩

/-- C2 (amended).  For every document whose map keys are nonempty and
dot-free and every target path of nonempty dot-free segments, the item
extractor applied to the annotated event stream yields exactly the values
of the document walk to that path, in document order; in particular on
`{"a": [1, 2]}` with target `"a.item"` it yields `1` then `2`. -/
theorem claim_C2 (V : JValue) (T : List String)
    (hT : goodSegs T = true) (hV : goodKeys V = true)
    (hnd : noDupKeys V = true) :
    itemsGo (joinDot T) (parseOuts (toEvents V)) = occurs T V ∧
    itemsGo "a.item"
      (parseOuts (toEvents (.obj [("a", .arr [.num 1, .num 2])]))) =
      [.num 1, .num 2] := by
  constructor
  · have hp : parseOuts (toEvents V) = annotV [] V := by
      unfold parseOuts
      rw [show ([] : List (Option String)) = ([] : List String).map some from rfl,
        parseRun_toEvents V []]
    rw [hp]
    show itemsLoop (joinDot T) .scan (annotV [] V) = occurs T V
    rw [show annotV [] V = annotV [] V ++ [] from (List.append_nil _).symm,
      itemsM V [] T [] rfl hT hV hnd,
      show rem? [] T = some T from rfl,
      show occursRem (some T) V = occurs T V from rfl,
      show itemsLoop (joinDot T) .scan [] = [] from rfl, List.append_nil]
  · rfl

theorem claim_C2_witness :
    goodSegs ["a", "item"] = true ∧
    goodKeys (.obj [("a", .arr [.num 1, .num 2])]) = true ∧
    noDupKeys (.obj [("a", .arr [.num 1, .num 2])]) = true ∧
    itemsGo (joinDot ["a", "item"])
      (parseOuts (toEvents (.obj [("a", .arr [.num 1, .num 2])]))) =
      occurs ["a", "item"] (.obj [("a", .arr [.num 1, .num 2])]) :=
  ⟨rfl, rfl, rfl,
   (claim_C2 (.obj [("a", .arr [.num 1, .num 2])]) ["a", "item"]
     rfl rfl rfl).1⟩

theorem claim_C2_counterexample :
    itemsGo "" (parseOuts (toEvents (.obj [("", .obj [])]))) =
      [.obj [("", .obj [])], .null] ∧
    occurs [] (.obj [("", .obj [])]) = [.obj [("", .obj [])]] ∧
    joinDot [] = "" ∧ joinDot [""] = "" :=
  ⟨rfl, rfl, rfl, rfl⟩

/-- C4 (amended).  Every value the Phase-2 generator yields is emitted at
a point where the keys stack equals the target path, and a run yields at
most one value per flag-setting (scalar or `End`) event plus at most one
stale yield enabled by an already-set flag — but the flag is not cleared
by events away from the target, so the stale yield can fire at a later
`map_key` event, which is not a completed value. -/
theorem claim_C4 :
    (∀ (pfx : List String) (es : List Event) (st : HState),
      ∀ entry ∈ jgRunLog pfx st es, ∀ v, entry.emitted = some v →
        entry.post.keys = pfx) ∧
    (∀ (pfx : List String) (es : List Event) (st : HState),
      (jgYields pfx st es).length ≤
        (es.filter (fun e => e.isScalar || e.isEnd)).length +
          (if st.flag then 1 else 0)) :=
  ⟨fun pfx es st entry hm v hv => jgRunLog_emits_at pfx es st entry hm v hv,
   fun pfx es st => jgYields_bound pfx es st⟩

theorem claim_C4_witness :
    ((⟨⟨["a"], [⟨.harr [], "", false, false⟩], none, false⟩, .number 5,
       ⟨["a"], [⟨.harr [.num 5], "", false, false⟩], none, false⟩,
       some (.num 5)⟩ : JGEntry).post.keys = ["a"]) ∧
    (jgYields ["a"] ⟨["a"], [⟨.harr [], "", false, false⟩], none, false⟩
      [.number 5]).length ≤
      ([Event.number 5].filter (fun e => e.isScalar || e.isEnd)).length +
        (if (⟨["a"], [⟨.harr [], "", false, false⟩], none, false⟩ :
          HState).flag then 1 else 0) :=
  ⟨claim_C4.1 ["a"] [.number 5]
    ⟨["a"], [⟨.harr [], "", false, false⟩], none, false⟩
    ⟨⟨["a"], [⟨.harr [], "", false, false⟩], none, false⟩, .number 5,
     ⟨["a"], [⟨.harr [.num 5], "", false, false⟩], none, false⟩, some (.num 5)⟩
    (by rw [show jgRunLog ["a"]
        (⟨["a"], [⟨.harr [], "", false, false⟩], none, false⟩ : HState)
        [.number 5] =
        [⟨⟨["a"], [⟨.harr [], "", false, false⟩], none, false⟩, .number 5,
          ⟨["a"], [⟨.harr [.num 5], "", false, false⟩], none, false⟩,
          some (.num 5)⟩] from rfl]
        exact List.mem_singleton.mpr rfl)
    (.num 5) rfl,
   claim_C4.2 ["a"] [.number 5]
     ⟨["a"], [⟨.harr [], "", false, false⟩], none, false⟩⟩

theorem claim_C4_counterexample :
    (jgRunLog ["a"]
      (genInit ⟨["item"], [⟨.hgen, "", false, false⟩], none, false⟩)
      [.map_key "b", .number 5, .map_key "a"]).map
        (fun en => (en.ev, en.emitted)) =
      [(.map_key "b", none), (.number 5, none),
       (.map_key "a", some (.str "a"))] ∧
    (Event.map_key "a").isScalar = false ∧ (Event.map_key "a").isEnd = false :=
  ⟨rfl, rfl, rfl⟩

/-- C5 (amended).  During Phase 2, every value at the target path is
forwarded to the caller; the placeholder list at the target location does
accumulate the streamed items while the target container is open, but the
accumulated list is discarded when that container closes — it is never
linked into the skeleton, whose entry at the target location remains the
generator object. -/
theorem claim_C5 (xs : List JValue) (post : List (String × JValue))
    (hnd : noDupKeysL xs = true) (hndp : noDupKeysE post = true)
    (hndk : nodupKeys (post.map Prod.fst) = true)
    (hpost : ∀ kj ∈ post.map Prod.fst, kj ≠ "k") :
    jgYields ["k", "item"]
      (genInit ⟨["k", "item"],
        [⟨.hmap [("k", HValue.gen)], "", false, true⟩, ⟨.hgen, "", false, false⟩],
        none, false⟩)
      (toEventsL xs ++ (.end_array :: (toEventsE post ++ [.end_map]))) =
      toHL xs ∧
    jgExec ["k", "item"]
      (genInit ⟨["k", "item"],
        [⟨.hmap [("k", HValue.gen)], "", false, true⟩, ⟨.hgen, "", false, false⟩],
        none, false⟩)
      (toEventsL xs) =
      ⟨["k", "item"],
        [⟨.hmap [("k", HValue.gen)], "", false, true⟩,
         ⟨.harr (toHL xs), "", false, false⟩],
        none, false⟩ ∧
    jgExec ["k", "item"]
      (genInit ⟨["k", "item"],
        [⟨.hmap [("k", HValue.gen)], "", false, true⟩, ⟨.hgen, "", false, false⟩],
        none, false⟩)
      (toEventsL xs ++ (.end_array :: (toEventsE post ++ [.end_map]))) =
      ⟨[], [], some (.hmap (("k", HValue.gen) :: toHE post)), true⟩ :=
  ⟨(hybrid_gen_run xs post hnd hndp hndk hpost).2.2.1,
   (hybrid_gen_run xs post hnd hndp hndk hpost).2.1,
   (hybrid_gen_run xs post hnd hndp hndk hpost).2.2.2⟩

theorem claim_C5_witness :
    noDupKeysL [JValue.num 1, JValue.num 2] = true ∧
    noDupKeysE [("b", JValue.num 7)] = true ∧
    nodupKeys (([("b", JValue.num 7)] :
      List (String × JValue)).map Prod.fst) = true ∧
    (∀ kj ∈ ([("b", JValue.num 7)] :
      List (String × JValue)).map Prod.fst, kj ≠ "k") ∧
    jgYields ["k", "item"]
      (genInit ⟨["k", "item"],
        [⟨.hmap [("k", HValue.gen)], "", false, true⟩, ⟨.hgen, "", false, false⟩],
        none, false⟩)
      (toEventsL [JValue.num 1, JValue.num 2] ++
        (.end_array :: (toEventsE [("b", JValue.num 7)] ++ [.end_map]))) =
      toHL [JValue.num 1, JValue.num 2] :=
  ⟨rfl, rfl, rfl, by decide,
   (claim_C5 [JValue.num 1, JValue.num 2] [("b", JValue.num 7)]
     rfl rfl rfl (by decide)).1⟩

theorem claim_C5_counterexample :
    jgExec ["data", "item"]
      (genInit ⟨["data", "item"],
        [⟨.hmap [("data", HValue.gen)], "", false, true⟩,
         ⟨.hgen, "", false, false⟩],
        none, false⟩)
      [.number 1, .number 2, .number 3] =
      ⟨["data", "item"],
        [⟨.hmap [("data", HValue.gen)], "", false, true⟩,
         ⟨.harr [.num 1, .num 2, .num 3], "", false, false⟩],
        none, false⟩ := rfl

/-- C6.  The keys stack and the data stack have equal length at every
point: at initialisation, after every Phase-1 step up to and including
the break, across the generator's rebinding of the stack top, and before
and after every Phase-2 step. -/
theorem claim_C6 :
    hInit.keys.length = hInit.data.length ∧
    (∀ (pfx : List String) (es : List Event),
      ∀ st' ∈ spTrace pfx true hInit es,
        st'.keys.length = st'.data.length) ∧
    (∀ st : HState, st.keys.length = st.data.length →
      (genInit st).keys.length = (genInit st).data.length) ∧
    (∀ (pfx : List String) (es : List Event) (st : HState),
      st.keys.length = st.data.length →
      ∀ entry ∈ jgRunLog pfx st es,
        entry.pre.keys.length = entry.pre.data.length ∧
        entry.post.keys.length = entry.post.data.length) := by
  refine ⟨rfl, fun pfx es st' h => spTrace_balanced pfx es true hInit rfl st' h,
    fun st h => ?_, fun pfx es st h entry hm => jgRunLog_balanced pfx es st h entry hm⟩
  rw [(genInit_lens st).1, (genInit_lens st).2]
  exact h

theorem claim_C6_witness :
    ((⟨["item"], [⟨.hgen, "", false, false⟩], none, false⟩ :
       HState).keys.length =
     (⟨["item"], [⟨.hgen, "", false, false⟩], none, false⟩ :
       HState).data.length) ∧
    (genInit ⟨["item"], [⟨.hgen, "", false, false⟩], none,
      false⟩).keys.length =
    (genInit ⟨["item"], [⟨.hgen, "", false, false⟩], none,
      false⟩).data.length :=
  ⟨claim_C6.2.1 ["a"] [.start_map]
    ⟨["item"], [⟨.hgen, "", false, false⟩], none, false⟩
    (by rw [show spTrace ["a"] true hInit [.start_map] =
        [⟨["item"], [⟨.hgen, "", false, false⟩], none, false⟩] from rfl]
        exact List.mem_singleton.mpr rfl),
   claim_C6.2.2.1 ⟨["item"], [⟨.hgen, "", false, false⟩], none, false⟩ rfl⟩

/-- C10 (amended).  When the stream reaches the target path, the hybrid
structure stores the Phase-2 generator object itself into the parent
container at the target location, and — provided no later key of that
parent equals the target's key — the skeleton's entry at that location is
still the generator object after the stream is exhausted, never a
reconstructed collection of the streamed items. -/
theorem claim_C10 (xs : List JValue) (post : List (String × JValue))
    (hnd : noDupKeysL xs = true) (hndp : noDupKeysE post = true)
    (hndk : nodupKeys (post.map Prod.fst) = true)
    (hpost : ∀ kj ∈ post.map Prod.fst, kj ≠ "k") :
    spRun ["k", "item"] true hInit
      (toEvents (.obj (("k", .arr xs) :: post))) =
      .ok (⟨["k", "item"],
        [⟨.hmap [("k", HValue.gen)], "", false, true⟩, ⟨.hgen, "", false, false⟩],
        none, false⟩,
        toEventsL xs ++ (.end_array :: (toEventsE post ++ [.end_map])), true) ∧
    lookupH [("k", HValue.gen)] "k" = some HValue.gen ∧
    jgExec ["k", "item"]
      (genInit ⟨["k", "item"],
        [⟨.hmap [("k", HValue.gen)], "", false, true⟩, ⟨.hgen, "", false, false⟩],
        none, false⟩)
      (toEventsL xs ++ (.end_array :: (toEventsE post ++ [.end_map]))) =
      ⟨[], [], some (.hmap (("k", HValue.gen) :: toHE post)), true⟩ ∧
    lookupH (("k", HValue.gen) :: toHE post) "k" = some HValue.gen :=
  ⟨(hybrid_gen_run xs post hnd hndp hndk hpost).1, rfl,
   (hybrid_gen_run xs post hnd hndp hndk hpost).2.2.2, rfl⟩

theorem claim_C10_witness :
    noDupKeysL [JValue.num 1] = true ∧
    noDupKeysE [("b", JValue.null)] = true ∧
    nodupKeys (([("b", JValue.null)] :
      List (String × JValue)).map Prod.fst) = true ∧
    (∀ kj ∈ ([("b", JValue.null)] :
      List (String × JValue)).map Prod.fst, kj ≠ "k") ∧
    (jgExec ["k", "item"]
      (genInit ⟨["k", "item"],
        [⟨.hmap [("k", HValue.gen)], "", false, true⟩, ⟨.hgen, "", false, false⟩],
        none, false⟩)
      (toEventsL [JValue.num 1] ++
        (.end_array :: (toEventsE [("b", JValue.null)] ++ [.end_map]))) =
      ⟨[], [], some (.hmap (("k", HValue.gen) ::
        toHE [("b", JValue.null)])), true⟩ ∧
     lookupH (("k", HValue.gen) :: toHE [("b", JValue.null)]) "k" =
       some HValue.gen) :=
  ⟨rfl, rfl, rfl, by decide,
   (claim_C10 [JValue.num 1] [("b", JValue.null)] rfl rfl rfl (by decide)).2.2⟩

theorem claim_C10_counterexample :
    spRun ["a", "item"] true hInit
      [.start_map, .map_key "a", .start_array, .number 1, .end_array,
       .map_key "a", .number 2, .end_map] =
      .ok (⟨["a", "item"],
        [⟨.hmap [("a", HValue.gen)], "", false, true⟩, ⟨.hgen, "", false, false⟩],
        none, false⟩,
        [.number 1, .end_array, .map_key "a", .number 2, .end_map], true) ∧
    (jgExec ["a", "item"]
      (genInit ⟨["a", "item"],
        [⟨.hmap [("a", HValue.gen)], "", false, true⟩, ⟨.hgen, "", false, false⟩],
        none, false⟩)
      [.number 1, .end_array, .map_key "a", .number 2, .end_map]).selfDone =
      some (.hmap [("a", HValue.num 2)]) ∧
    lookupH [("a", HValue.num 2)] "a" ≠ some HValue.gen := by
  refine ⟨rfl, rfl, ?_⟩
  intro hcon
  rw [show lookupH [("a", HValue.num 2)] "a" = some (HValue.num 2) from rfl]
    at hcon
  injection hcon with hcon
  exact HValue.noConfusion hcon

end IJson
